import Mathlib

/-!
Session-key handling of `session.go` (package `pm`).

A shallow embedding of `src/session.go` and the properties of its
length encoder, cipher registry, key-packet decryptor and message splitter.

Conventions of the embedding:

* a Go `byte` is a `Nat` below 256, a `[]byte` is a `List Nat`;
* a Go `int` is an `Int` (no operation of the embedded code can overflow);
* a Go slice whose nil-ness the code inspects is an `Option (List Nat)`,
  `none` being the nil slice and `some []` the empty, non-nil slice;
* a Go `(value, error)` result is a pair of options, a run-time panic is a
  separate outcome;
* the functions of `golang.org/x/crypto/openpgp` the code calls are
  parameters, gathered in the structure `Lib`.
-/

namespace Session

/-! ## Length encoder -/

/-- A Go byte string. -/
abbrev Bytes := List Nat

/-- The Go conversion `byte(x)` of an `int`: the low eight bits. -/
def byte (x : Int) : Nat := (x % 256).toNat

/-- The function `encodedLength` of `session.go`, lines 287-302. The sum
`192+byte(length>>8)` is a `uint8` sum and wraps at 256. -/
def encodedLength (length : Int) : Bytes :=
  if length < 192 then
    [byte length]
  else if length < 8384 then
    let length := length - 192
    [(192 + byte (length >>> (8 : Nat))) % 256, byte length]
  else
    [byte 255, byte (length >>> (24 : Nat)), byte (length >>> (16 : Nat)),
      byte (length >>> (8 : Nat)), byte length]

/-- The new-format length decoder of an OpenPGP reader (RFC 4880, 4.2.2), as
the specification words it: one octet below 192 is the length; a first octet
`b0` with `192 ≤ b0 < 224` and a second `b1` give
`((b0 - 192) << 8) + b1 + 192`; the octet 255 is followed by the length as a
four-octet big-endian number. The result is the length and the bytes left
unread; any other input has no definite length. -/
def decodeLength : Bytes → Option (Nat × Bytes)
  | [] => none
  | b0 :: rest =>
    if b0 < 192 then some (b0, rest)
    else if b0 < 224 then
      match rest with
      | b1 :: rest1 => some (((b0 - 192) <<< 8) + b1 + 192, rest1)
      | [] => none
    else if b0 = 255 then
      match rest with
      | b3 :: b2 :: b1 :: b0 :: rest4 =>
        some (b3 * 2 ^ 24 + b2 * 2 ^ 16 + b1 * 2 ^ 8 + b0, rest4)
      | _ => none
    else none

/-! ## Cipher registry -/

/-- The type `packet.CipherFunction` (a `uint8`). -/
abbrev CipherFunction := Nat

/-- The constant `packet.Cipher3DES` of the imported package
`golang.org/x/crypto/openpgp/packet` (RFC 4880, 9.2). -/
def Cipher3DES : CipherFunction := 2

/-- The constant `packet.CipherCAST5` of the imported package (RFC 4880, 9.2). -/
def CipherCAST5 : CipherFunction := 3

/-- The constant `packet.CipherAES128` of the imported package (RFC 4880, 9.2). -/
def CipherAES128 : CipherFunction := 7

/-- The constant `packet.CipherAES192` of the imported package (RFC 4880, 9.2). -/
def CipherAES192 : CipherFunction := 8

/-- The constant `packet.CipherAES256` of the imported package (RFC 4880, 9.2). -/
def CipherAES256 : CipherFunction := 9

/-- The map `symKeyAlgos` of `session.go`, lines 235-241, as the list of its
entries in the order of the source text. -/
def symKeyAlgos : List (String × CipherFunction) :=
  [("3des", Cipher3DES), ("cast5", CipherCAST5), ("aes128", CipherAES128),
   ("aes192", CipherAES192), ("aes256", CipherAES256)]

/-- The function `cipherFunc` of `session.go`, lines 244-250: the map lookup
`symKeyAlgos[algo]` with the AES-256 fallback. -/
def cipherFunc (algo : String) : CipherFunction :=
  match symKeyAlgos.lookup algo with
  | some cf => cf
  | none => CipherAES256

/-- The loop `for k, v := range symKeyAlgos` of `getAlgo` (lines 276-281) and
of `getSessionSplit` (lines 257-262): the first entry visited whose value is
`cipher` sets `algo` to its key and ends the loop. Go leaves the iteration
order of a map unspecified, so the order the entries are visited in is the
argument `order`. -/
def rangeSymKeyAlgos (order : List (String × CipherFunction)) (cipher : CipherFunction)
    (algo : String) : String :=
  match order with
  | [] => algo
  | (k, v) :: rest => if v = cipher then k else rangeSymKeyAlgos rest cipher algo

/-- The function `getAlgo` of `session.go`, lines 274-284, run with the map
entries visited in the order `order`. -/
def getAlgo (order : List (String × CipherFunction)) (cipher : CipherFunction) : String :=
  rangeSymKeyAlgos order cipher "aes256"

/-- One iteration order a Go run may use: a rearrangement of the entries of
`symKeyAlgos`. -/
def IterationOrder (order : List (String × CipherFunction)) : Prop :=
  order.Perm symKeyAlgos

/-! ## Errors and outcomes -/

/-- A Go `error` value: the sentinel `io.EOF`, an error made by the openpgp
library or by armor decoding, or an error made by `errors.New` in `session.go`. -/
inductive Error where
  | EOF
  | lib (msg : String)
  | new (msg : String)
  deriving DecidableEq, Repr

/-- How a call of a Go function with the result type `(*α, error)` ends: it
returns a pointer (nil is `none`) and an error (nil is `none`), or it panics. -/
inductive Outcome (α : Type) where
  | returns (value : Option α) (err : Option Error)
  | panics
  deriving DecidableEq, Repr

/-- The conversion `[]byte(s)` of a Go string: its UTF-8 bytes. -/
def bytesOfString (s : String) : Bytes := s.toUTF8.data.toList.map UInt8.toNat

/-! ## Data model -/

/-- Modelled from the spec: the struct `SessionSplit`, declared in a file of the
package other than `session.go`; the fields are the two `session.go` fills,
the session key bytes and the cipher name. -/
structure SessionSplit where
  Session : Bytes
  Algo : String
  deriving DecidableEq, Repr

/-- Modelled from the spec: the struct `EncryptedSplit`, declared in a file of
the package other than `session.go`; the fields are the two `session.go`
fills, the data packet bytes and the key packet bytes. -/
structure EncryptedSplit where
  DataPacket : Bytes
  KeyPacket : Bytes
  deriving DecidableEq, Repr

/-- The library type `packet.EncryptedKey`. `CipherFunc` and `Key` are only
filled by a decryption; `Key` is a slice the code compares with nil. -/
structure EncryptedKey where
  KeyId : Nat
  Algo : Nat
  encryptedMPI : Bytes
  CipherFunc : CipherFunction
  Key : Option Bytes
  deriving DecidableEq, Repr

/-- The library type `packet.SymmetricKeyEncrypted`, a session key encrypted
under a passphrase. -/
structure SymmetricKeyEncrypted where
  CipherFunc : CipherFunction
  encryptedKey : Bytes
  deriving DecidableEq, Repr

/-- The library type `packet.SymmetricallyEncrypted`. `Contents` and `readErr`
are the two results of `ioutil.ReadAll(p.Contents)`. -/
structure SymmetricallyEncrypted where
  MDC : Bool
  Contents : Bytes
  readErr : Option Error
  deriving DecidableEq, Repr

/-- The library interface `packet.Packet`, by dynamic type: the three types
`session.go` tells apart and every other packet, kept by its tag. -/
inductive Packet where
  | EncryptedKey (p : EncryptedKey)
  | SymmetricKeyEncrypted (p : SymmetricKeyEncrypted)
  | SymmetricallyEncrypted (p : SymmetricallyEncrypted)
  | other (tag : Nat)
  deriving DecidableEq, Repr

/-- One result of `packets.Next()` before the end of the stream: a packet, or
an error other than `io.EOF` with a nil packet. A packet stream is the list
of these results; after the last one `Next` returns `io.EOF`. -/
inductive NextResult where
  | packet (p : Packet)
  | failure (msg : String)
  deriving DecidableEq, Repr

/-- The library type `packet.PrivateKey`: the flag `Encrypted` and the key
material. -/
structure PrivateKey where
  Encrypted : Bool
  material : Nat
  deriving DecidableEq, Repr

/-- The library type `packet.PublicKey`. -/
structure PublicKey where
  KeyId : Nat
  deriving DecidableEq, Repr

/-- The flags of the library type `packet.Signature` that `session.go` reads. -/
structure Signature where
  FlagsValid : Bool
  FlagEncryptStorage : Bool
  FlagEncryptCommunications : Bool
  deriving DecidableEq, Repr

/-- The library type `openpgp.Subkey`. -/
structure Subkey where
  PublicKey : PublicKey
  PrivateKey : Option PrivateKey
  Sig : Signature
  deriving DecidableEq, Repr

/-- The library type `openpgp.Identity`. -/
structure Identity where
  Name : String
  SelfSignature : Signature
  deriving DecidableEq, Repr

/-- The library type `openpgp.Entity`. `Identities` is a Go map, kept as the
list of its entries. -/
structure Entity where
  PrimaryKey : PublicKey
  PrivateKey : Option PrivateKey
  Identities : List (String × Identity)
  Subkeys : List Subkey
  deriving DecidableEq, Repr

/-- The library type `openpgp.EntityList`. -/
abbrev EntityList := List Entity

/-- The library type `openpgp.Key`, a candidate decryption key; its private
key is never nil. -/
structure Key where
  PublicKey : PublicKey
  PrivateKey : PrivateKey
  deriving DecidableEq, Repr

/-- What a call `ek.Decrypt(priv, nil)` of the library does: the cipher and the
key it writes into the fields `CipherFunc` and `Key` of the packet, when the
private-key operation gets that far (the key is then the non-nil slice
`b[1 : len(b)-2]` of the decrypted bytes `b`), and the error it returns. -/
structure DecryptResult where
  recorded : Option (CipherFunction × Bytes)
  err : Option Error
  deriving DecidableEq, Repr

/-- The packet after a call of `ek.Decrypt`: the other fields are not written. -/
def EncryptedKey.record (ek : EncryptedKey) (r : DecryptResult) : EncryptedKey :=
  match r.recorded with
  | some (cipher, key) => { ek with CipherFunc := cipher, Key := some key }
  | none => ek

/-- The functions `session.go` calls and does not define: those of
`golang.org/x/crypto/openpgp` and `UnArmor` of the package's armor file.

* `NewReader b` is the packet stream of `packet.NewReader(bytes.NewReader(b))`;
* `ReadKeyRing`, `ReadArmoredKeyRing` and `UnArmor` return a Go pair;
* `DecryptionKeys` is the method of `EntityList`;
* `PrivateKeyDecrypt priv pwd` is `priv.Decrypt(pwd)`: the private key after
  the call and the error;
* `EncryptedKeyDecrypt keyId algo mpi priv` is `ek.Decrypt(priv, nil)` for a
  packet `ek` with these three fields, the only ones the call reads;
* `EncryptedKeySerialize ek` is the bytes `ek.Serialize(&buf)` writes for a
  non-nil `ek`. -/
structure Lib where
  NewReader : Bytes → List NextResult
  ReadKeyRing : Bytes → EntityList × Option Error
  ReadArmoredKeyRing : String → EntityList × Option Error
  DecryptionKeys : EntityList → List Key
  PrivateKeyDecrypt : PrivateKey → Bytes → PrivateKey × Option Error
  EncryptedKeyDecrypt : Nat → Nat → Bytes → PrivateKey → DecryptResult
  EncryptedKeySerialize : EncryptedKey → Bytes
  UnArmor : String → Bytes × Option Error

/-! ## Key-packet decryptor -/

/-- Lines 59-63 (and 100-104): a private key with `Encrypted` set is unlocked
with the passphrase; the result is the private key afterwards and the error
of the unlocking, nil for a key that needs none. -/
def unlock (L : Lib) (rawPwd : Bytes) (priv : PrivateKey) : PrivateKey × Option Error :=
  if priv.Encrypted then L.PrivateKeyDecrypt priv rawPwd else (priv, none)

/-- The loop over `privKeyEntries.DecryptionKeys()`, lines 57-68 (and 98-109),
from the packet `ek` and the value of `decryptErr` before the loop to their
values after it: a candidate that fails to unlock is skipped, a decryption
without error ends the loop, one with an error is recorded in `decryptErr`. -/
def tryDecryptionKeys (L : Lib) (rawPwd : Bytes) :
    List Key → EncryptedKey → Option Error → EncryptedKey × Option Error
  | [], ek, decryptErr => (ek, decryptErr)
  | key :: keys, ek, decryptErr =>
    match unlock L rawPwd key.PrivateKey with
    | (_, some _) => tryDecryptionKeys L rawPwd keys ek decryptErr
    | (priv, none) =>
      let r := L.EncryptedKeyDecrypt ek.KeyId ek.Algo ek.encryptedMPI priv
      match r.err with
      | none => (ek.record r, none)
      | some e => tryDecryptionKeys L rawPwd keys (ek.record r) (some e)

/-- The candidate `key` fails to unlock: it is passphrase-protected and
`priv.Decrypt(rawPwd)` returns an error, so the loop skips it. -/
def FailsToUnlock (L : Lib) (rawPwd : Bytes) (key : Key) : Prop :=
  (unlock L rawPwd key.PrivateKey).2 ≠ none

/-- The candidate `key`, once unlocked, fails to decrypt the packet `ek`:
`ek.Decrypt(priv, nil)` returns an error. -/
def FailsToDecrypt (L : Lib) (rawPwd : Bytes) (ek : EncryptedKey) (key : Key) : Prop :=
  (L.EncryptedKeyDecrypt ek.KeyId ek.Algo ek.encryptedMPI
    (unlock L rawPwd key.PrivateKey).1).err ≠ none

instance (L : Lib) (rawPwd : Bytes) (key : Key) : Decidable (FailsToUnlock L rawPwd key) := by
  unfold FailsToUnlock
  infer_instance

instance (L : Lib) (rawPwd : Bytes) (ek : EncryptedKey) (key : Key) :
    Decidable (FailsToDecrypt L rawPwd ek key) := by
  unfold FailsToDecrypt
  infer_instance

/-- The function `getSessionSplit` of `session.go`, lines 252-272, with the map
iterated in the order `order`. -/
def getSessionSplit (order : List (String × CipherFunction)) (ek : Option EncryptedKey) :
    Outcome SessionSplit :=
  match ek with
  | none => .returns none (some (.new "can't decrypt key packet"))
  | some ek =>
    let algo := rangeSymKeyAlgos order ek.CipherFunc "aes256"
    match ek.Key with
    | none => .returns none (some (.new "can't decrypt key packet key is nil"))
    | some key => .returns (some { Session := key, Algo := algo }) none

/-- The body shared by `GetSessionFromKeyPacketBinkeys` (lines 39-74) and
`GetSessionFromKeyPacket` (lines 80-115), which differ only in the call that
reads the key ring, whose result is `ring`. The type assertion
`p.(*packet.EncryptedKey)` panics on a packet of another type; the variable
`err` returned at lines 71 and 112 is the error of the key ring reader. -/
def getSessionWithKeyRing (L : Lib) (order : List (String × CipherFunction))
    (keyPackage : Bytes) (ring : EntityList × Option Error) (passphrase : String) :
    Outcome SessionSplit :=
  match L.NewReader keyPackage with
  | [] => .returns none (some .EOF)
  | .failure msg :: _ => .returns none (some (.lib msg))
  | .packet p :: _ =>
    match p with
    | .EncryptedKey ek =>
      let (privKeyEntries, err) := ring
      if err.isSome then .returns none err
      else
        let rawPwd := bytesOfString passphrase
        let (ek, decryptErr) :=
          tryDecryptionKeys L rawPwd (L.DecryptionKeys privKeyEntries) ek none
        if decryptErr.isSome then .returns none err
        else getSessionSplit order (some ek)
    | _ => .panics

/-- The function `GetSessionFromKeyPacketBinkeys` of `session.go`, lines 37-75. -/
def GetSessionFromKeyPacketBinkeys (L : Lib) (order : List (String × CipherFunction))
    (keyPackage : Bytes) (privateKey : Bytes) (passphrase : String) : Outcome SessionSplit :=
  getSessionWithKeyRing L order keyPackage (L.ReadKeyRing privateKey) passphrase

/-- The function `GetSessionFromKeyPacket` of `session.go`, lines 78-116. -/
def GetSessionFromKeyPacket (L : Lib) (order : List (String × CipherFunction))
    (keyPackage : Bytes) (privateKey : String) (passphrase : String) : Outcome SessionSplit :=
  getSessionWithKeyRing L order keyPackage (L.ReadArmoredKeyRing privateKey) passphrase

/-! ## Message splitter -/

/-- Lines 344-349 of `SeparateKeyAndData`: the data packet built from the
contents of a symmetrically encrypted packet. -/
def reframe (packetContents : Bytes) : Bytes :=
  let encodedLength := encodedLength ((packetContents.length : Int) + 1)
  let symEncryptedData : Bytes := []
  let symEncryptedData := symEncryptedData ++ [byte 210]
  let symEncryptedData := symEncryptedData ++ encodedLength
  let symEncryptedData := symEncryptedData ++ [byte 1]
  symEncryptedData ++ packetContents

/-- The loop of `SeparateKeyAndData`, lines 324-355, over the results of
`packets.Next()`, from the values of `ek` and `outSplit` before it. The end
of the stream sets `err` to nil and leaves the loop; after an error other
than `io.EOF` the packet is nil, no case applies and the loop goes on; a
failure of `ioutil.ReadAll` returns from the function with that error. The
result is that error, or the values of `ek`, `outSplit` and `err` after the
loop. -/
def walkPackets : List NextResult → Option EncryptedKey → EncryptedSplit →
    Except Error (Option EncryptedKey × EncryptedSplit × Option Error)
  | [], ek, outSplit => .ok (ek, outSplit, none)
  | .failure _ :: rest, ek, outSplit => walkPackets rest ek outSplit
  | .packet (.EncryptedKey p) :: rest, ek, outSplit =>
    let skip := match ek with
      | some cur => cur.Key.isSome
      | none => false
    if skip then walkPackets rest ek outSplit
    else walkPackets rest (some p) outSplit
  | .packet (.SymmetricallyEncrypted p) :: rest, ek, outSplit =>
    match p.readErr with
    | some err => .error err
    | none => walkPackets rest ek { outSplit with DataPacket := reframe p.Contents }
  | .packet (.SymmetricKeyEncrypted _) :: rest, ek, outSplit => walkPackets rest ek outSplit
  | .packet (.other _) :: rest, ek, outSplit => walkPackets rest ek outSplit

/-- The function `SeparateKeyAndData` of `session.go`, lines 305-362. The call
`ek.Serialize(&buf)` on a nil `ek` reads a field through a nil pointer and
panics; its error result is dropped by the code. -/
def SeparateKeyAndData (L : Lib) (encrypted : String) : Outcome EncryptedSplit :=
  match L.UnArmor encrypted with
  | (_, some err) => .returns none (some err)
  | (encryptedRaw, none) =>
    match walkPackets (L.NewReader encryptedRaw) none { DataPacket := [], KeyPacket := [] } with
    | .error err => .returns none (some err)
    | .ok (ek, outSplit, err) =>
      match ek with
      | none => .panics
      | some ek => .returns (some { outSplit with KeyPacket := L.EncryptedKeySerialize ek }) err

/-! ## A small instance of the library

A toy library in which a packet stream has one packet per byte and a key ring
one entity per byte; the theorems below are applied to it. -/

/-- The key packet of byte 1 of a toy packet stream, as parsed: it holds the
key `[10, 20, 30]` for AES-256, encrypted to the key of material 7. -/
def demoKeyPacket : EncryptedKey :=
  { KeyId := 7, Algo := 1, encryptedMPI := [9, 10, 20, 30, 0, 60], CipherFunc := 0, Key := none }

/-- The toy packet reader: the result of `Next` for one byte of the stream.
The packet of byte 5 holds the empty key, encrypted to the key of material 7. -/
def demoNext : Nat → NextResult
  | 1 => .packet (.EncryptedKey demoKeyPacket)
  | 2 => .packet (.SymmetricKeyEncrypted { CipherFunc := 9, encryptedKey := [1] })
  | 3 => .packet (.SymmetricallyEncrypted
      { MDC := true, Contents := [10, 20, 30], readErr := none })
  | 4 => .failure "unexpected EOF"
  | 5 => .packet (.EncryptedKey
      { KeyId := 7, Algo := 1, encryptedMPI := [9, 0, 0], CipherFunc := 0, Key := none })
  | n => .packet (.other n)

/-- The toy key ring reader: the entity of one byte `m`, with one subkey whose
private key has the material `m % 100` and is passphrase-protected when
`m ≥ 100`. -/
def demoEntity (m : Nat) : Entity :=
  { PrimaryKey := { KeyId := m }, PrivateKey := none, Identities := [],
    Subkeys := [{ PublicKey := { KeyId := m },
                  PrivateKey := some { Encrypted := decide (100 ≤ m), material := m % 100 },
                  Sig := { FlagsValid := false, FlagEncryptStorage := false,
                           FlagEncryptCommunications := false } }] }

/-- The candidate keys of a key ring, as the library computes them: the subkeys
with a private key whose flags are absent or allow encryption. -/
def demoDecryptionKeys (el : EntityList) : List Key :=
  el.flatMap fun e => e.Subkeys.filterMap fun subKey =>
    match subKey.PrivateKey with
    | some priv =>
      if !subKey.Sig.FlagsValid || subKey.Sig.FlagEncryptStorage
          || subKey.Sig.FlagEncryptCommunications then
        some { PublicKey := subKey.PublicKey, PrivateKey := priv }
      else none
    | none => none

/-- The toy decryption of a key packet: a private key that is still locked
decrypts nothing; an unlocked one whose material is the key id of the packet
recovers the bytes `b` of the packet, and, as the library does, records `b[0]`
as cipher and `b[1 : len(b)-2]` as key and compares the last two bytes with
the checksum of the key. -/
def demoDecrypt (keyId _algo : Nat) (b : Bytes) (priv : PrivateKey) : DecryptResult :=
  if priv.Encrypted then
    { recorded := none, err := some (.lib "private key is encrypted") }
  else if priv.material = keyId then
    let key := (b.drop 1).take (b.length - 3)
    if key.sum % 65536 = (b.drop (b.length - 2)).headD 0 * 256 + b.getLastD 0 then
      { recorded := some (b.headD 0, key), err := none }
    else
      { recorded := some (b.headD 0, key), err := some (.lib "EncryptedKey checksum incorrect") }
  else { recorded := none, err := some (.lib "cannot decrypt encrypted session key") }

/-- The toy decoding of a text: a digit stands for the byte of its value, a
lower-case letter for 100 plus its place in the alphabet, from `a` for 100. -/
def demoDigits (s : String) : Bytes :=
  s.toList.map fun c => if c.toNat < 97 then c.toNat - 48 else c.toNat + 3

/-- The toy library. A private key is unlocked by the passphrase "pw". -/
def demoLib : Lib where
  NewReader := fun b => b.map demoNext
  ReadKeyRing := fun b => (b.map demoEntity, none)
  ReadArmoredKeyRing := fun s => ((demoDigits s).map demoEntity, none)
  DecryptionKeys := demoDecryptionKeys
  PrivateKeyDecrypt := fun priv pwd =>
    if pwd = [112, 119] then ({ priv with Encrypted := false }, none)
    else (priv, some (.lib "private key checksum failure"))
  EncryptedKeyDecrypt := demoDecrypt
  EncryptedKeySerialize := fun ek => 193 :: ek.KeyId :: ek.Algo :: ek.encryptedMPI
  UnArmor := fun s => (demoDigits s, none)

/-! ## Key-packet encryptor and symmetric key-packet decryptor -/

/-- The library functions of the encryptor and of the password path, added to
those of `Lib`.

* `SymmetricKeyEncryptedDecrypt s pwd` is `s.Decrypt(pwd)`: the key, the cipher
  identifier and the error it returns;
* `SerializeSymmetricKeyEncryptedReuseKey session pwd cipher` is the call of
  line 227 with a configuration whose default cipher is `cipher`: the bytes
  written to the buffer and the error;
* `SerializeEncryptedKey pub cipher session` is the call of line 165: the bytes
  written to the buffer and the error. -/
structure CryptoLib extends Lib where
  SymmetricKeyEncryptedDecrypt : SymmetricKeyEncrypted → Bytes →
    Bytes × CipherFunction × Option Error
  SerializeSymmetricKeyEncryptedReuseKey : Bytes → Bytes → CipherFunction →
    Bytes × Option Error
  SerializeEncryptedKey : PublicKey → CipherFunction → Bytes → Bytes × Option Error

/-- The test of line 143 on the signature of a subkey: the flags are absent, or
allow the encryption of storage or of communications. -/
def subkeyQualifies (sig : Signature) : Bool :=
  !sig.FlagsValid || sig.FlagEncryptStorage || sig.FlagEncryptCommunications

/-- The test of line 153 on the self-signature of an identity, as the source
has it: `FlagsValid` is not negated. -/
def identityQualifies (sig : Signature) : Bool :=
  sig.FlagsValid || sig.FlagEncryptStorage || sig.FlagEncryptCommunications

/-- The loop over `e.Subkeys`, lines 142-147, from the value of `pub` before it:
the first subkey that passes the test sets `pub` and ends the loop. -/
def rangeSubkeys : List Subkey → Option PublicKey → Option PublicKey
  | [], pub => pub
  | subKey :: rest, pub =>
    if subkeyQualifies subKey.Sig then some subKey.PublicKey
    else rangeSubkeys rest pub

/-- Lines 148-156: when `pub` is still nil and the entity has identities, the
identity the `range` statement visits first decides whether the primary key
is taken. The list `e.Identities` is read in the order of that visit. -/
def identityFallback (e : Entity) (pub : Option PublicKey) : Option PublicKey :=
  if pub.isNone ∧ e.Identities.length > 0 then
    match e.Identities with
    | (_, i) :: _ => if identityQualifies i.SelfSignature then some e.PrimaryKey else pub
    | [] => pub
  else pub

/-- The loop over `pubKeyEntries`, lines 141-160, from the value of `pub` before
it: an entity that leaves `pub` set ends the loop. -/
def rangeEntries : EntityList → Option PublicKey → Option PublicKey
  | [], pub => pub
  | e :: rest, pub =>
    let pub := rangeSubkeys e.Subkeys pub
    let pub := identityFallback e pub
    if pub.isSome then pub else rangeEntries rest pub

/-- The function `KeyPacketWithPublicKeyBin` of `session.go`, lines 128-170, for
a non-nil `sessionSplit`. The error of `ReadKeyRing` is not looked at; the
error built at line 166 is dropped and line 167 returns a new one. -/
def KeyPacketWithPublicKeyBin (L : CryptoLib) (sessionSplit : SessionSplit)
    (publicKey : Bytes) : Outcome Bytes :=
  let (pubKeyEntries, _) := L.ReadKeyRing publicKey
  let cf := cipherFunc sessionSplit.Algo
  if pubKeyEntries.length = 0 then
    .returns none (some (.new "cannot set key: key ring is empty"))
  else
    match rangeEntries pubKeyEntries none with
    | none => .returns none (some (.new "cannot set key: no public key available"))
    | some pub =>
      match L.SerializeEncryptedKey pub cf sessionSplit.Session with
      | (_, some _) => .returns none (some (.new "cannot set key: key ring is empty"))
      | (out, none) => .returns (some out) none

/-- The function `KeyPacketWithPublicKey` of `session.go`, lines 119-125. -/
def KeyPacketWithPublicKey (L : CryptoLib) (sessionSplit : SessionSplit)
    (publicKey : String) : Outcome Bytes :=
  match L.UnArmor publicKey with
  | (_, some err) => .returns none (some err)
  | (pubkeyRaw, none) => KeyPacketWithPublicKeyBin L sessionSplit pubkeyRaw

/-- The loop of `GetSessionFromSymmetricPacket`, lines 179-191, over the results
of `packets.Next()`, from the value of `symKeys` before it: every error of
`Next`, the end of the stream included, leaves the loop; a packet of type
`*packet.SymmetricKeyEncrypted` is appended, any other is passed over. -/
def collectSymKeys : List NextResult → List SymmetricKeyEncrypted → List SymmetricKeyEncrypted
  | [], symKeys => symKeys
  | .failure _ :: _, symKeys => symKeys
  | .packet (.SymmetricKeyEncrypted p) :: rest, symKeys => collectSymKeys rest (symKeys ++ [p])
  | .packet (.EncryptedKey _) :: rest, symKeys => collectSymKeys rest symKeys
  | .packet (.SymmetricallyEncrypted _) :: rest, symKeys => collectSymKeys rest symKeys
  | .packet (.other _) :: rest, symKeys => collectSymKeys rest symKeys

/-- The case of the type switch of lines 187-190: the packet, when its type is
`*packet.SymmetricKeyEncrypted`. -/
def symKeyOf : Packet → Option SymmetricKeyEncrypted
  | .SymmetricKeyEncrypted s => some s
  | _ => none

/-- The loop over `symKeys`, lines 196-205: the first packet `s.Decrypt(pwdRaw)`
succeeds on gives the `SessionSplit` returned; `none` when the loop ends
without a return. -/
def trySymKeys (L : CryptoLib) (order : List (String × CipherFunction)) (pwdRaw : Bytes) :
    List SymmetricKeyEncrypted → Option SessionSplit
  | [] => none
  | s :: rest =>
    match L.SymmetricKeyEncryptedDecrypt s pwdRaw with
    | (key, cipherFunc, none) => some { Session := key, Algo := getAlgo order cipherFunc }
    | (_, _, some _) => trySymKeys L order pwdRaw rest

/-- The slice `[]byte(s)` of line 193 as a slice that can be compared with nil:
the conversion of a string makes a new slice, which is not nil, for the empty
string too. -/
def sliceOfString (s : String) : Option Bytes := some (bytesOfString s)

/-- The function `GetSessionFromSymmetricPacket` of `session.go`, lines 173-209. -/
def GetSessionFromSymmetricPacket (L : CryptoLib) (order : List (String × CipherFunction))
    (keyPackage : Bytes) (password : String) : Outcome SessionSplit :=
  let symKeys := collectSymKeys (L.NewReader keyPackage) []
  match sliceOfString password with
  | some pwdRaw =>
    if symKeys.length ≠ 0 then
      match trySymKeys L order pwdRaw symKeys with
      | some split => .returns (some split) none
      | none => .returns none (some (.new "password incorrect"))
    else .returns none (some (.new "password incorrect"))
  | none => .returns none (some (.new "password incorrect"))

/-- The function `SymmetricKeyPacketWithPassword` of `session.go`, lines 212-232,
for a non-nil `sessionSplit`; `len(password)` is the number of bytes of the
string. -/
def SymmetricKeyPacketWithPassword (L : CryptoLib) (sessionSplit : SessionSplit)
    (password : String) : Outcome Bytes :=
  let cf := cipherFunc sessionSplit.Algo
  if password.utf8ByteSize ≤ 0 then
    .returns none (some (.new "password can't be empty"))
  else
    let pwdRaw := bytesOfString password
    match L.SerializeSymmetricKeyEncryptedReuseKey sessionSplit.Session pwdRaw cf with
    | (_, some err) => .returns none (some err)
    | (out, none) => .returns (some out) none

/-! ## A small instance of the encryptor library -/

/-- The toy packet reader of the encryptor library for one byte of the stream:
byte 6 is a password-encrypted session key for AES-256 made with a password
of one byte, byte 8 one for AES-128 made with the empty password; the other
bytes are read as `demoNext` reads them. -/
def demoNextCrypto : Nat → NextResult
  | 6 => .packet (.SymmetricKeyEncrypted { CipherFunc := 9, encryptedKey := [1, 10, 20, 30] })
  | 8 => .packet (.SymmetricKeyEncrypted { CipherFunc := 7, encryptedKey := [0, 1, 2] })
  | n => demoNext n

/-- The toy packet reader of the encryptor library: a byte string that starts
with 0 is one serialized packet, a key packet after `[0, 1]` and a
password-encrypted session key after `[0, 2]`; any other byte string has one
packet per byte. -/
def demoReader : Bytes → List NextResult
  | 0 :: 1 :: keyId :: mpi =>
    [.packet (.EncryptedKey
      { KeyId := keyId, Algo := 1, encryptedMPI := mpi, CipherFunc := 0, Key := none })]
  | 0 :: 2 :: cipher :: body =>
    [.packet (.SymmetricKeyEncrypted { CipherFunc := cipher, encryptedKey := body })]
  | b => b.map demoNextCrypto

/-- An identity whose self-signature has valid flags, none of which allows
encryption: the identity of a key made for signing only. -/
def demoSigner : Identity :=
  { Name := "alice",
    SelfSignature :=
      { FlagsValid := true, FlagEncryptStorage := false, FlagEncryptCommunications := false } }

/-- The toy key ring reader of the encryptor library, for one byte `m`: below
200 the entity of `demoEntity`, whose subkey has no flags; from 200 to 249 an
entity without subkeys whose only identity has valid flags that allow no
encryption; from 250 an entity without subkeys and without identities. -/
def demoPublicEntity (m : Nat) : Entity :=
  if m < 200 then demoEntity m
  else if m < 250 then
    { PrimaryKey := { KeyId := m }, PrivateKey := none,
      Identities := [("alice", demoSigner)], Subkeys := [] }
  else { PrimaryKey := { KeyId := m }, PrivateKey := none, Identities := [], Subkeys := [] }

/-- The toy decryption of a password-encrypted session key: the first byte of
the packet body is the length of the password it was made with, the rest is
the key. -/
def demoSymDecrypt (s : SymmetricKeyEncrypted) (pwd : Bytes) :
    Bytes × CipherFunction × Option Error :=
  match s.encryptedKey with
  | check :: key =>
    if check = pwd.length then (key, s.CipherFunc, none)
    else ([], s.CipherFunc, some (.lib "s2k: wrong passphrase"))
  | [] => ([], s.CipherFunc, some (.lib "s2k: wrong passphrase"))

/-- The toy encryptor library: the serializers write what `demoReader`,
`demoDecrypt` and `demoSymDecrypt` read back; a key packet cannot be made for
the public key of id 99. -/
def demoCrypto : CryptoLib where
  NewReader := demoReader
  ReadKeyRing := fun b => (b.map demoPublicEntity, none)
  ReadArmoredKeyRing := fun s => ((demoDigits s).map demoPublicEntity, none)
  DecryptionKeys := demoDecryptionKeys
  PrivateKeyDecrypt := demoLib.PrivateKeyDecrypt
  EncryptedKeyDecrypt := demoDecrypt
  EncryptedKeySerialize := fun ek => 0 :: 1 :: ek.KeyId :: ek.encryptedMPI
  UnArmor := fun s => (demoDigits s, none)
  SymmetricKeyEncryptedDecrypt := demoSymDecrypt
  SerializeSymmetricKeyEncryptedReuseKey := fun session pwd cipher =>
    (0 :: 2 :: cipher :: pwd.length :: session, none)
  SerializeEncryptedKey := fun pub cipher session =>
    if pub.KeyId = 99 then ([], some (.lib "unsupported public key algorithm"))
    else
      (0 :: 1 :: pub.KeyId % 100 :: cipher ::
        (session ++ [session.sum / 256 % 256, session.sum % 256]), none)

/-! ## Theorems: length encoder -/

theorem byte_natCast (n : Nat) : byte (n : Int) = n % 256 := by
  unfold byte; omega

theorem byte_shiftRight_natCast (n k : Nat) : byte ((n : Int) >>> k) = n / 2 ^ k % 256 := by
  rw [Int.shiftRight_eq_div_pow, ← Int.ofNat_ediv, byte_natCast]

theorem encodedLength_natCast (n : Nat) :
    encodedLength (n : Int) =
      if n < 192 then [n]
      else if n < 8384 then [192 + (n - 192) / 256, (n - 192) % 256]
      else [255, n / 2 ^ 24 % 256, n / 2 ^ 16 % 256, n / 2 ^ 8 % 256, n % 256] := by
  unfold encodedLength
  by_cases h1 : n < 192
  · have h1' : (n : Int) < 192 := by omega
    rw [if_pos h1, if_pos h1', byte_natCast]
    congr 1; omega
  · have h1' : ¬ (n : Int) < 192 := by omega
    rw [if_neg h1, if_neg h1']
    by_cases h2 : n < 8384
    · have h2' : (n : Int) < 8384 := by omega
      rw [if_pos h2, if_pos h2']
      have hc : (n : Int) - 192 = ((n - 192 : Nat) : Int) := by omega
      simp only [hc, byte_shiftRight_natCast, byte_natCast]
      congr 1
      have : (n - 192) / 2 ^ 8 < 32 := by omega
      omega
    · have h2' : ¬ (n : Int) < 8384 := by omega
      rw [if_neg h2, if_neg h2']
      simp only [byte_shiftRight_natCast, byte_natCast]
      have : byte 255 = 255 := by decide
      rw [this]


theorem decodeLength_encodedLength (n : Nat) (hn : n < 2 ^ 32) (rest : Bytes) :
    decodeLength (encodedLength (n : Int) ++ rest) = some (n, rest) := by
  rw [encodedLength_natCast]
  by_cases h1 : n < 192
  · simp [h1, decodeLength]
  · rw [if_neg h1]
    by_cases h2 : n < 8384
    · rw [if_pos h2]
      have hq : (n - 192) / 256 < 32 := by omega
      have ha : ¬ (192 + (n - 192) / 256 < 192) := by omega
      have hb : 192 + (n - 192) / 256 < 224 := by omega
      simp only [List.cons_append, List.nil_append, decodeLength, if_neg ha, if_pos hb,
        Nat.shiftLeft_eq]
      congr 2
      omega
    · rw [if_neg h2]
      simp only [List.cons_append, List.nil_append, decodeLength]
      simp only [show ¬ (255 < 192) by decide, show ¬ (255 < 224) by decide, if_false, if_true]
      congr 2
      omega

/-- C1: for every length `n` with `0 ≤ n < 2^32`, `encodedLength n` is the
single byte `n` when `n < 192`, the two bytes `192 + ((n-192) >> 8)` and
`(n-192) & 0xFF` when `192 ≤ n < 8384`, and `0xFF` followed by the four bytes
of the big-endian representation of `n` when `n ≥ 8384`; in particular it is
`[0]` at 0, `[191]` at 191, `[192,0]` at 192, `[223,255]` at 8383 and
`[255,0,0,32,192]` at 8384. -/
theorem encodedLength_three_tiers (n : Nat) (hn : n < 2 ^ 32) :
    (n < 192 → encodedLength (n : Int) = [n]) ∧
    (192 ≤ n → n < 8384 →
      encodedLength (n : Int) = [192 + ((n - 192) >>> 8), (n - 192) &&& 0xFF]) ∧
    (8384 ≤ n → ∃ b3 b2 b1 b0 : Nat, b3 < 256 ∧ b2 < 256 ∧ b1 < 256 ∧ b0 < 256 ∧
      b3 * 2 ^ 24 + b2 * 2 ^ 16 + b1 * 2 ^ 8 + b0 = n ∧
      encodedLength (n : Int) = [0xFF, b3, b2, b1, b0]) ∧
    encodedLength 0 = [0] ∧ encodedLength 191 = [191] ∧ encodedLength 192 = [192, 0] ∧
    encodedLength 8383 = [223, 255] ∧ encodedLength 8384 = [255, 0, 0, 32, 192] := by
  refine ⟨?_, ?_, ?_, by decide, by decide, by decide, by decide, by decide⟩
  · intro h
    rw [encodedLength_natCast, if_pos h]
  · intro h1 h2
    rw [encodedLength_natCast, if_neg (by omega), if_pos h2, Nat.shiftRight_eq_div_pow]
    have hm : (n - 192) &&& 0xFF = (n - 192) % 256 :=
      Nat.and_pow_two_sub_one_eq_mod (n - 192) 8
    rw [hm]
  · intro h
    refine ⟨n / 2 ^ 24 % 256, n / 2 ^ 16 % 256, n / 2 ^ 8 % 256, n % 256, ?_, ?_, ?_, ?_, ?_, ?_⟩
    · omega
    · omega
    · omega
    · omega
    · omega
    · rw [encodedLength_natCast, if_neg (by omega), if_neg (by omega)]

/-- The three-tier description of C1 applied to the length 70000, which lies
in the five-byte tier. -/
theorem encodedLength_three_tiers_witness :
    (70000 < 2 ^ 32) ∧ ∃ b3 b2 b1 b0 : Nat, b3 < 256 ∧ b2 < 256 ∧ b1 < 256 ∧ b0 < 256 ∧
      b3 * 2 ^ 24 + b2 * 2 ^ 16 + b1 * 2 ^ 8 + b0 = 70000 ∧
      encodedLength ((70000 : Nat) : Int) = [0xFF, b3, b2, b1, b0] :=
  ⟨by decide, (encodedLength_three_tiers 70000 (by decide)).2.2.1 (by decide)⟩

/-- C2, as stated, fails: a Go `int` of 64 bits holds the length `2^32`, whose
header is `[255,0,0,0,0]`; the decoder reads the length 0 from it, not `2^32`. -/
theorem decodeLength_encodedLength_overflow :
    encodedLength 4294967296 = [255, 0, 0, 0, 0] ∧
    decodeLength (encodedLength 4294967296) = some (0, []) ∧
    decodeLength (encodedLength 4294967296) ≠ some (4294967296, []) := by
  decide

/-- C2, amended: for every length `n` with `0 ≤ n < 2^32`, the new-format
length decoder applied to the header `encodedLength n`, followed by any bytes
`rest`, recovers exactly `n` and leaves exactly `rest` unread. -/
theorem decodeLength_encodedLength_roundtrip (n : Nat) (hn : n < 2 ^ 32) (rest : Bytes) :
    decodeLength (encodedLength (n : Int) ++ rest) = some (n, rest) :=
  decodeLength_encodedLength n hn rest

/-- The round trip of C2 at the length 8001 followed by two more bytes. -/
theorem decodeLength_encodedLength_roundtrip_witness :
    (8001 < 2 ^ 32) ∧
    decodeLength (encodedLength ((8001 : Nat) : Int) ++ [1, 7]) = some (8001, [1, 7]) :=
  ⟨by decide, decodeLength_encodedLength_roundtrip 8001 (by decide) [1, 7]⟩


theorem rangeSymKeyAlgos_of_unique (order : List (String × CipherFunction))
    (cipher : CipherFunction) (name algo : String)
    (huniq : ∀ e ∈ order, e.2 = cipher → e.1 = name) (hex : ∃ e ∈ order, e.2 = cipher) :
    rangeSymKeyAlgos order cipher algo = name := by
  induction order with
  | nil => obtain ⟨e, he, _⟩ := hex; cases he
  | cons hd tl ih =>
    obtain ⟨k, v⟩ := hd
    unfold rangeSymKeyAlgos
    by_cases hv : v = cipher
    · rw [if_pos hv]
      exact huniq (k, v) (List.mem_cons_self _ _) hv
    · rw [if_neg hv]
      apply ih
      · intro e he
        exact huniq e (List.mem_cons_of_mem _ he)
      · obtain ⟨e, he, hec⟩ := hex
        rcases List.mem_cons.mp he with h | h
        · subst h
          exact absurd hec hv
        · exact ⟨e, h, hec⟩

theorem rangeSymKeyAlgos_of_absent (order : List (String × CipherFunction))
    (cipher : CipherFunction) (algo : String) (habs : ∀ e ∈ order, e.2 ≠ cipher) :
    rangeSymKeyAlgos order cipher algo = algo := by
  induction order with
  | nil => rfl
  | cons hd tl ih =>
    obtain ⟨k, v⟩ := hd
    unfold rangeSymKeyAlgos
    rw [if_neg (habs (k, v) (List.mem_cons_self _ _))]
    exact ih (fun e he => habs e (List.mem_cons_of_mem _ he))

theorem mem_symKeyAlgos (e : String × CipherFunction) :
    e ∈ symKeyAlgos ↔
      e = ("3des", 2) ∨ e = ("cast5", 3) ∨ e = ("aes128", 7) ∨ e = ("aes192", 8) ∨
        e = ("aes256", 9) := by
  simp [symKeyAlgos, Cipher3DES, CipherCAST5, CipherAES128, CipherAES192, CipherAES256]

theorem rangeSymKeyAlgos_known (order : List (String × CipherFunction))
    (horder : IterationOrder order) (name algo : String) (cipher : CipherFunction)
    (hmem : (name, cipher) ∈ symKeyAlgos) :
    rangeSymKeyAlgos order cipher algo = name := by
  apply rangeSymKeyAlgos_of_unique
  · intro e he hec
    have he' : e ∈ symKeyAlgos := (List.Perm.mem_iff horder).mp he
    rw [mem_symKeyAlgos] at he' hmem
    obtain ⟨k, v⟩ := e
    simp only [Prod.mk.injEq] at he' hmem
    simp only at hec
    subst hec
    rcases he' with ⟨hk, hv⟩ | ⟨hk, hv⟩ | ⟨hk, hv⟩ | ⟨hk, hv⟩ | ⟨hk, hv⟩ <;>
      rcases hmem with ⟨hn, hc⟩ | ⟨hn, hc⟩ | ⟨hn, hc⟩ | ⟨hn, hc⟩ | ⟨hn, hc⟩ <;>
      first
        | (exfalso; rw [hv] at hc; exact absurd hc (by decide))
        | (rw [hk, hn])
  · exact ⟨(name, cipher), (List.Perm.mem_iff horder).mpr hmem, rfl⟩

theorem rangeSymKeyAlgos_unknown (order : List (String × CipherFunction))
    (horder : IterationOrder order) (algo : String) (cipher : CipherFunction)
    (hc : cipher ∉ [Cipher3DES, CipherCAST5, CipherAES128, CipherAES192, CipherAES256]) :
    rangeSymKeyAlgos order cipher algo = algo := by
  apply rangeSymKeyAlgos_of_absent
  intro e he hec
  have he' : e ∈ symKeyAlgos := (List.Perm.mem_iff horder).mp he
  rw [mem_symKeyAlgos] at he'
  apply hc
  simp only [Cipher3DES, CipherCAST5, CipherAES128, CipherAES192, CipherAES256,
    List.mem_cons, List.mem_singleton, List.not_mem_nil, or_false]
  rcases he' with h | h | h | h | h <;> subst h <;> subst hec <;> simp

theorem cipherFunc_known (name : String)
    (hname : name ∈ ["3des", "cast5", "aes128", "aes192", "aes256"]) :
    (name, cipherFunc name) ∈ symKeyAlgos := by
  simp only [List.mem_cons, List.mem_singleton, List.not_mem_nil, or_false] at hname
  rcases hname with h | h | h | h | h <;> subst h <;> decide

/-- C3: for each of the five known cipher names, `getAlgo (cipherFunc name)`
is `name` again, whatever order the entries of the map `symKeyAlgos` are
iterated in; the five identifiers of the map are pairwise distinct. -/
theorem getAlgo_cipherFunc_roundtrip (order : List (String × CipherFunction))
    (horder : IterationOrder order) (name : String)
    (hname : name ∈ ["3des", "cast5", "aes128", "aes192", "aes256"]) :
    getAlgo order (cipherFunc name) = name ∧ (symKeyAlgos.map Prod.snd).Nodup :=
  ⟨rangeSymKeyAlgos_known order horder name "aes256" (cipherFunc name) (cipherFunc_known name hname),
    by decide⟩

/-- The round trip of C3 for the name "cast5" with the map iterated in the
reverse of the order of the source text. -/
theorem getAlgo_cipherFunc_roundtrip_witness :
    IterationOrder symKeyAlgos.reverse ∧ "cast5" ∈ ["3des", "cast5", "aes128", "aes192", "aes256"] ∧
    getAlgo symKeyAlgos.reverse (cipherFunc "cast5") = "cast5" :=
  ⟨List.reverse_perm symKeyAlgos, by decide,
    (getAlgo_cipherFunc_roundtrip symKeyAlgos.reverse (List.reverse_perm symKeyAlgos) "cast5"
      (by decide)).1⟩

/-- C4: for every string that is not one of the five known cipher names,
`cipherFunc` returns the AES-256 identifier, and for every identifier that is
not one of the five known ones `getAlgo` returns "aes256", whatever order the
map is iterated in; both are total functions, so neither fails. -/
theorem unknown_cipher_falls_back_to_aes256 (algo : String) (cipher : CipherFunction)
    (order : List (String × CipherFunction)) (horder : IterationOrder order)
    (halgo : algo ∉ ["3des", "cast5", "aes128", "aes192", "aes256"])
    (hcipher : cipher ∉ [Cipher3DES, CipherCAST5, CipherAES128, CipherAES192, CipherAES256]) :
    cipherFunc algo = CipherAES256 ∧ getAlgo order cipher = "aes256" := by
  refine ⟨?_, rangeSymKeyAlgos_unknown order horder "aes256" cipher hcipher⟩
  simp only [List.mem_cons, List.mem_singleton, List.not_mem_nil, or_false, not_or] at halgo
  obtain ⟨h1, h2, h3, h4, h5⟩ := halgo
  have b1 : (algo == "3des") = false := by simp [h1]
  have b2 : (algo == "cast5") = false := by simp [h2]
  have b3 : (algo == "aes128") = false := by simp [h3]
  have b4 : (algo == "aes192") = false := by simp [h4]
  have b5 : (algo == "aes256") = false := by simp [h5]
  simp only [cipherFunc, symKeyAlgos, List.lookup, b1, b2, b3, b4, b5]

/-- The fallback of C4 for the unknown name "blowfish" and the unknown
identifier 4, with the map iterated in reverse order. -/
theorem unknown_cipher_falls_back_to_aes256_witness :
    IterationOrder symKeyAlgos.reverse ∧
    "blowfish" ∉ ["3des", "cast5", "aes128", "aes192", "aes256"] ∧
    (4 : CipherFunction) ∉ [Cipher3DES, CipherCAST5, CipherAES128, CipherAES192, CipherAES256] ∧
    cipherFunc "blowfish" = CipherAES256 ∧ getAlgo symKeyAlgos.reverse 4 = "aes256" :=
  ⟨List.reverse_perm symKeyAlgos, by decide, by decide,
    unknown_cipher_falls_back_to_aes256 "blowfish" 4 symKeyAlgos.reverse
      (List.reverse_perm symKeyAlgos) (by decide) (by decide)⟩


/-! ## Theorems: message splitter -/

theorem reframe_eq (c : Bytes) :
    reframe c = [0xD2] ++ encodedLength ((c.length : Int) + 1) ++ [0x01] ++ c := by
  simp [reframe, byte]

theorem walkPackets_symmetricallyEncrypted (p : SymmetricallyEncrypted)
    (rest : List NextResult) (ek : Option EncryptedKey) (outSplit : EncryptedSplit)
    (hp : p.readErr = none) :
    walkPackets (.packet (.SymmetricallyEncrypted p) :: rest) ek outSplit =
      walkPackets rest ek { outSplit with DataPacket := reframe p.Contents } := by
  rw [walkPackets, hp]

theorem walkPackets_encryptedKey (p : EncryptedKey) (rest : List NextResult)
    (ek : Option EncryptedKey) (outSplit : EncryptedSplit) :
    (ek ≠ none ∧ walkPackets (.packet (.EncryptedKey p) :: rest) ek outSplit =
        walkPackets rest ek outSplit) ∨
      walkPackets (.packet (.EncryptedKey p) :: rest) ek outSplit =
        walkPackets rest (some p) outSplit := by
  match ek with
  | none => right; rw [walkPackets]; rfl
  | some cur =>
    cases hk : cur.Key with
    | none => right; rw [walkPackets]; simp [hk]
    | some key => left; refine ⟨by simp, ?_⟩; rw [walkPackets]; simp [hk]

/-- The walk over a stretch `pre` of the stream in which every symmetrically
encrypted packet can be read goes on after it. The key-packet field of
`outSplit` is unchanged; a key packet is in hand afterwards if one was before
or one is in the stretch, and none is if none was before and none is in the
stretch; `outSplit` is unchanged if the stretch has no symmetrically
encrypted packet. -/
theorem walkPackets_append (pre l : List NextResult)
    (hpre : ∀ q, NextResult.packet (.SymmetricallyEncrypted q) ∈ pre → q.readErr = none) :
    ∀ (ek : Option EncryptedKey) (outSplit : EncryptedSplit),
      ∃ ek1 out1, walkPackets (pre ++ l) ek outSplit = walkPackets l ek1 out1 ∧
        out1.KeyPacket = outSplit.KeyPacket ∧
        ((ek ≠ none ∨ ∃ k, NextResult.packet (.EncryptedKey k) ∈ pre) → ek1 ≠ none) ∧
        ((∀ q, NextResult.packet (.SymmetricallyEncrypted q) ∉ pre) → out1 = outSplit) ∧
        (ek = none → (∀ k, NextResult.packet (.EncryptedKey k) ∉ pre) → ek1 = none) := by
  induction pre with
  | nil =>
    intro ek outSplit
    refine ⟨ek, outSplit, rfl, rfl, ?_, fun _ => rfl, fun h _ => h⟩
    rintro (h | ⟨k, hk⟩)
    · exact h
    · cases hk
  | cons r pre ih =>
    have hpre' : ∀ q, NextResult.packet (.SymmetricallyEncrypted q) ∈ pre → q.readErr = none :=
      fun q hq => hpre q (List.mem_cons_of_mem _ hq)
    have hkeep : ∀ (ek : Option EncryptedKey) (outSplit : EncryptedSplit),
        (∀ k, r ≠ NextResult.packet (.EncryptedKey k)) →
        (∀ q, r ≠ NextResult.packet (.SymmetricallyEncrypted q)) →
        walkPackets (r :: (pre ++ l)) ek outSplit = walkPackets (pre ++ l) ek outSplit →
        ∃ ek1 out1, walkPackets (r :: pre ++ l) ek outSplit = walkPackets l ek1 out1 ∧
          out1.KeyPacket = outSplit.KeyPacket ∧
          ((ek ≠ none ∨ ∃ k, NextResult.packet (.EncryptedKey k) ∈ r :: pre) → ek1 ≠ none) ∧
          ((∀ q, NextResult.packet (.SymmetricallyEncrypted q) ∉ r :: pre) → out1 = outSplit) ∧
          (ek = none → (∀ k, NextResult.packet (.EncryptedKey k) ∉ r :: pre) → ek1 = none) := by
      intro ek outSplit hnk hns hw
      obtain ⟨ek1, out1, h1, h2, h3, h4, h5⟩ := ih hpre' ek outSplit
      refine ⟨ek1, out1, by rw [List.cons_append, hw, h1], h2, ?_, ?_, ?_⟩
      · rintro (h | ⟨k, hk⟩)
        · exact h3 (Or.inl h)
        · rcases List.mem_cons.mp hk with hk | hk
          · exact absurd hk.symm (hnk k)
          · exact h3 (Or.inr ⟨k, hk⟩)
      · exact fun h => h4 (fun q hq => h q (List.mem_cons_of_mem _ hq))
      · exact fun hek h => h5 hek (fun k hk => h k (List.mem_cons_of_mem _ hk))
    intro ek outSplit
    match r with
    | .failure msg =>
      exact hkeep ek outSplit (fun k h => by cases h) (fun q h => by cases h) (by rw [walkPackets])
    | .packet (.SymmetricKeyEncrypted p) =>
      exact hkeep ek outSplit (fun k h => by cases h) (fun q h => by cases h) (by rw [walkPackets])
    | .packet (.other tag) =>
      exact hkeep ek outSplit (fun k h => by cases h) (fun q h => by cases h) (by rw [walkPackets])
    | .packet (.EncryptedKey p) =>
      have hmem : ¬ ∀ k, NextResult.packet (.EncryptedKey k) ∉
          NextResult.packet (.EncryptedKey p) :: pre :=
        fun h => h p (List.mem_cons_self _ _)
      rcases walkPackets_encryptedKey p (pre ++ l) ek outSplit with ⟨hek, hw⟩ | hw
      · obtain ⟨ek1, out1, h1, h2, h3, h4, _⟩ := ih hpre' ek outSplit
        exact ⟨ek1, out1, by rw [List.cons_append, hw, h1], h2, fun _ => h3 (Or.inl hek),
          fun h => h4 (fun q hq => h q (List.mem_cons_of_mem _ hq)),
          fun _ h => absurd h hmem⟩
      · obtain ⟨ek1, out1, h1, h2, h3, h4, _⟩ := ih hpre' (some p) outSplit
        exact ⟨ek1, out1, by rw [List.cons_append, hw, h1], h2, fun _ => h3 (Or.inl (by simp)),
          fun h => h4 (fun q hq => h q (List.mem_cons_of_mem _ hq)),
          fun _ h => absurd h hmem⟩
    | .packet (.SymmetricallyEncrypted p) =>
      have hp : p.readErr = none := hpre p (List.mem_cons_self _ _)
      obtain ⟨ek1, out1, h1, h2, h3, _, h5⟩ :=
        ih hpre' ek { outSplit with DataPacket := reframe p.Contents }
      refine ⟨ek1, out1, ?_, h2, ?_, ?_, ?_⟩
      · rw [List.cons_append, walkPackets_symmetricallyEncrypted _ _ _ _ hp, h1]
      · rintro (h | ⟨k, hk⟩)
        · exact h3 (Or.inl h)
        · rcases List.mem_cons.mp hk with hk | hk
          · cases hk
          · exact h3 (Or.inr ⟨k, hk⟩)
      · exact fun h => absurd (List.mem_cons_self _ _) (h p)
      · exact fun hek h => h5 hek (fun k hk => h k (List.mem_cons_of_mem _ hk))

theorem walkPackets_nil (ek : Option EncryptedKey) (outSplit : EncryptedSplit) :
    walkPackets [] ek outSplit = .ok (ek, outSplit, none) := by
  rw [walkPackets]

/-- C5: for every symmetrically encrypted packet met by `SeparateKeyAndData`
whose content `c` can be read, the data packet stored is `[0xD2]`, then
`encodedLength (len c + 1)`, then `[0x01]`, then `c`; when the packet is the
last of its type in a stream that holds a key packet, the call returns that
data packet; for a content of 8000 bytes the length field is the two bytes
`[222, 129]`, which decode to exactly 8001. -/
theorem SeparateKeyAndData_reframes_data_packet (L : Lib) (encrypted : String)
    (encryptedRaw : Bytes) (pre post : List NextResult) (p : SymmetricallyEncrypted)
    (k : EncryptedKey)
    (harmor : L.UnArmor encrypted = (encryptedRaw, none))
    (hstream : L.NewReader encryptedRaw = pre ++ .packet (.SymmetricallyEncrypted p) :: post)
    (hpre : ∀ q, NextResult.packet (.SymmetricallyEncrypted q) ∈ pre → q.readErr = none)
    (hp : p.readErr = none)
    (hpost : ∀ q, NextResult.packet (.SymmetricallyEncrypted q) ∉ post)
    (hkey : NextResult.packet (.EncryptedKey k) ∈ pre ++ post) :
    (∀ rest ek outSplit,
      walkPackets (.packet (.SymmetricallyEncrypted p) :: rest) ek outSplit =
        walkPackets rest ek
          { outSplit with
            DataPacket :=
              ([0xD2] ++ encodedLength ((p.Contents.length : Int) + 1) ++ [0x01] ++ p.Contents) }) ∧
    (∃ split, SeparateKeyAndData L encrypted = .returns (some split) none ∧
      split.DataPacket =
        [0xD2] ++ encodedLength ((p.Contents.length : Int) + 1) ++ [0x01] ++ p.Contents) ∧
    (p.Contents.length = 8000 →
      encodedLength ((p.Contents.length : Int) + 1) = [222, 129] ∧
      decodeLength ([222, 129] ++ [0x01] ++ p.Contents) = some (8001, [0x01] ++ p.Contents)) := by
  refine ⟨?_, ?_, ?_⟩
  · intro rest ek outSplit
    rw [walkPackets_symmetricallyEncrypted _ _ _ _ hp, reframe_eq]
  · obtain ⟨ek1, out1, h1, _, h3, _, _⟩ :=
      walkPackets_append pre (.packet (.SymmetricallyEncrypted p) :: post) hpre none
        { DataPacket := [], KeyPacket := [] }
    obtain ⟨ek2, out2, h1', _, h3', h4', _⟩ :=
      walkPackets_append post [] (fun q hq => absurd hq (hpost q)) ek1
        { out1 with DataPacket := reframe p.Contents }
    have hout : out2 = { out1 with DataPacket := reframe p.Contents } := h4' hpost
    have hek2 : ek2 ≠ none := by
      apply h3'
      rcases List.mem_append.mp hkey with hk | hk
      · exact Or.inl (h3 (Or.inr ⟨k, hk⟩))
      · exact Or.inr ⟨k, hk⟩
    have hwalk : walkPackets (L.NewReader encryptedRaw) none { DataPacket := [], KeyPacket := [] } =
        .ok (ek2, out2, none) := by
      rw [hstream, h1, walkPackets_symmetricallyEncrypted _ _ _ _ hp]
      rw [List.append_nil] at h1'
      rw [h1', walkPackets_nil]
    obtain ⟨key, hkey2⟩ := Option.ne_none_iff_exists'.mp hek2
    refine ⟨{ out2 with KeyPacket := L.EncryptedKeySerialize key }, ?_, ?_⟩
    · simp only [SeparateKeyAndData, harmor, hwalk, hkey2]
    · rw [hout, reframe_eq]
  · intro h8000
    rw [h8000]
    exact ⟨by decide, by simp [decodeLength]⟩

/-- C5 applied to the toy message "13": a key packet followed by a data packet
with the content `[10, 20, 30]`. -/
theorem SeparateKeyAndData_reframes_data_packet_witness :
    ∃ split, SeparateKeyAndData demoLib "13" = .returns (some split) none ∧
      split.DataPacket = [0xD2] ++ encodedLength 4 ++ [0x01] ++ [10, 20, 30] :=
  (SeparateKeyAndData_reframes_data_packet demoLib "13" [1, 3]
    [.packet (.EncryptedKey demoKeyPacket)] []
    { MDC := true, Contents := [10, 20, 30], readErr := none } demoKeyPacket
    rfl rfl (by simp) rfl (by simp) (by simp)).2.1

/-- C6, what the code does: when the armor decodes and the packet stream holds
no encrypted-session-key packet (and every data packet can be read),
`SeparateKeyAndData` reaches `ek.Serialize` with a nil `ek` and panics; no
error is returned. -/
theorem SeparateKeyAndData_without_key_packet_panics (L : Lib) (encrypted : String)
    (encryptedRaw : Bytes)
    (harmor : L.UnArmor encrypted = (encryptedRaw, none))
    (hnokey : ∀ k, NextResult.packet (.EncryptedKey k) ∉ L.NewReader encryptedRaw)
    (hread : ∀ q, NextResult.packet (.SymmetricallyEncrypted q) ∈ L.NewReader encryptedRaw →
      q.readErr = none) :
    SeparateKeyAndData L encrypted = .panics := by
  obtain ⟨ek1, out1, h1, _, _, _, h5⟩ :=
    walkPackets_append (L.NewReader encryptedRaw) [] hread none
      { DataPacket := [], KeyPacket := [] }
  rw [List.append_nil, walkPackets_nil] at h1
  have hek : ek1 = none := h5 rfl hnokey
  subst hek
  simp only [SeparateKeyAndData, harmor, h1]

/-- C6 at the toy message "3", a single data packet: the call panics. -/
theorem SeparateKeyAndData_without_key_packet_panics_witness :
    SeparateKeyAndData demoLib "3" = .panics :=
  SeparateKeyAndData_without_key_packet_panics demoLib "3" [3] rfl
    (by intro k hk; simp [demoLib, demoNext] at hk)
    (by intro q hq; simp [demoLib, demoNext] at hq; rw [hq])


/-! ## Theorems: key-packet decryptor -/

theorem record_wire (ek : EncryptedKey) (r : DecryptResult) :
    (ek.record r).KeyId = ek.KeyId ∧ (ek.record r).Algo = ek.Algo ∧
      (ek.record r).encryptedMPI = ek.encryptedMPI := by
  unfold EncryptedKey.record
  split <;> simp

/-- When every candidate fails to unlock or to decrypt, and a decryption error
is pending or some candidate unlocks, the loop ends with a decryption error
pending. -/
theorem tryDecryptionKeys_all_fail (L : Lib) (rawPwd : Bytes) (ek0 : EncryptedKey)
    (keys : List Key)
    (hfail : ∀ key ∈ keys, FailsToUnlock L rawPwd key ∨ FailsToDecrypt L rawPwd ek0 key) :
    ∀ (ek : EncryptedKey) (d : Option Error),
      ek.KeyId = ek0.KeyId → ek.Algo = ek0.Algo → ek.encryptedMPI = ek0.encryptedMPI →
      (d ≠ none ∨ ∃ key ∈ keys, ¬ FailsToUnlock L rawPwd key) →
      (tryDecryptionKeys L rawPwd keys ek d).2 ≠ none := by
  induction keys with
  | nil =>
    intro ek d _ _ _ hd
    rcases hd with hd | ⟨key, hkey, _⟩
    · simpa [tryDecryptionKeys] using hd
    · cases hkey
  | cons key keys ih =>
    have hfail' : ∀ k ∈ keys, FailsToUnlock L rawPwd k ∨ FailsToDecrypt L rawPwd ek0 k :=
      fun k hk => hfail k (List.mem_cons_of_mem _ hk)
    intro ek d h1 h2 h3 hd
    rw [tryDecryptionKeys]
    cases hu : unlock L rawPwd key.PrivateKey with
    | mk priv uerr =>
      cases uerr with
      | some e =>
        simp only
        apply ih hfail' ek d h1 h2 h3
        rcases hd with hd | ⟨k, hk, hku⟩
        · exact Or.inl hd
        · rcases List.mem_cons.mp hk with hk | hk
          · subst hk
            exact absurd (by simp [FailsToUnlock, hu]) hku
          · exact Or.inr ⟨k, hk, hku⟩
      | none =>
        simp only
        have hdec : FailsToDecrypt L rawPwd ek0 key := by
          rcases hfail key (List.mem_cons_self _ _) with h | h
          · exact absurd (by simp [hu]) h
          · exact h
        unfold FailsToDecrypt at hdec
        rw [hu] at hdec
        simp only at hdec
        rw [← h1, ← h2, ← h3] at hdec
        cases hr : (L.EncryptedKeyDecrypt ek.KeyId ek.Algo ek.encryptedMPI priv).err with
        | none => exact absurd hr hdec
        | some e =>
          simp only
          obtain ⟨w1, w2, w3⟩ :=
            record_wire ek (L.EncryptedKeyDecrypt ek.KeyId ek.Algo ek.encryptedMPI priv)
          exact ih hfail' _ (some e) (w1.trans h1) (w2.trans h2) (w3.trans h3)
            (Or.inl (by simp))


/-- When every candidate fails to unlock, the loop changes neither the packet
nor the pending decryption error. -/
theorem tryDecryptionKeys_none_unlocks (L : Lib) (rawPwd : Bytes) (keys : List Key)
    (hfail : ∀ key ∈ keys, FailsToUnlock L rawPwd key) (ek : EncryptedKey) (d : Option Error) :
    tryDecryptionKeys L rawPwd keys ek d = (ek, d) := by
  induction keys with
  | nil => rw [tryDecryptionKeys]
  | cons key keys ih =>
    have hkey : FailsToUnlock L rawPwd key := hfail key (List.mem_cons_self _ _)
    unfold FailsToUnlock at hkey
    rw [tryDecryptionKeys]
    cases hu : unlock L rawPwd key.PrivateKey with
    | mk priv uerr =>
      cases uerr with
      | some e => exact ih (fun k hk => hfail k (List.mem_cons_of_mem _ hk))
      | none => exact absurd (by simp [hu]) hkey

/-- When the candidates before the last fail and the last one unlocks and
decrypts the packet to the cipher `c` and the key `K`, the loop ends without a
pending error and with `c` and `K` recorded in the packet. -/
theorem tryDecryptionKeys_last_matches (L : Lib) (rawPwd : Bytes) (ek0 : EncryptedKey)
    (front : List Key) (last : Key) (c : CipherFunction) (K : Bytes)
    (hfront : ∀ key ∈ front, FailsToUnlock L rawPwd key ∨ FailsToDecrypt L rawPwd ek0 key)
    (hunlock : (unlock L rawPwd last.PrivateKey).2 = none)
    (hlast : L.EncryptedKeyDecrypt ek0.KeyId ek0.Algo ek0.encryptedMPI
      (unlock L rawPwd last.PrivateKey).1 = { recorded := some (c, K), err := none }) :
    ∀ (ek : EncryptedKey) (d : Option Error),
      ek.KeyId = ek0.KeyId → ek.Algo = ek0.Algo → ek.encryptedMPI = ek0.encryptedMPI →
      ∃ ekf, tryDecryptionKeys L rawPwd (front ++ [last]) ek d = (ekf, none) ∧
        ekf.Key = some K ∧ ekf.CipherFunc = c := by
  induction front with
  | nil =>
    intro ek d h1 h2 h3
    rw [List.nil_append, tryDecryptionKeys]
    cases hu : unlock L rawPwd last.PrivateKey with
    | mk priv uerr =>
      rw [hu] at hunlock hlast
      simp only at hunlock hlast
      subst hunlock
      simp only [h1, h2, h3, hlast]
      exact ⟨_, rfl, by simp [EncryptedKey.record], by simp [EncryptedKey.record]⟩
  | cons key keys ih =>
    have hfront' : ∀ k ∈ keys, FailsToUnlock L rawPwd k ∨ FailsToDecrypt L rawPwd ek0 k :=
      fun k hk => hfront k (List.mem_cons_of_mem _ hk)
    intro ek d h1 h2 h3
    rw [List.cons_append, tryDecryptionKeys]
    cases hu : unlock L rawPwd key.PrivateKey with
    | mk priv uerr =>
      cases uerr with
      | some e => exact ih hfront' ek d h1 h2 h3
      | none =>
        simp only
        have hdec : FailsToDecrypt L rawPwd ek0 key := by
          rcases hfront key (List.mem_cons_self _ _) with h | h
          · exact absurd (by simp [hu]) h
          · exact h
        unfold FailsToDecrypt at hdec
        rw [hu] at hdec
        simp only at hdec
        rw [← h1, ← h2, ← h3] at hdec
        cases hr : (L.EncryptedKeyDecrypt ek.KeyId ek.Algo ek.encryptedMPI priv).err with
        | none => exact absurd hr hdec
        | some e =>
          simp only
          obtain ⟨w1, w2, w3⟩ :=
            record_wire ek (L.EncryptedKeyDecrypt ek.KeyId ek.Algo ek.encryptedMPI priv)
          exact ih hfront' _ (some e) (w1.trans h1) (w2.trans h2) (w3.trans h3)

/-- The shared body once the first packet is an encrypted-session-key packet
and the key ring has parsed. -/
theorem getSessionWithKeyRing_of_key_packet (L : Lib) (order : List (String × CipherFunction))
    (keyPackage : Bytes) (entries : EntityList) (passphrase : String) (ek : EncryptedKey)
    (rest : List NextResult)
    (hfirst : L.NewReader keyPackage = .packet (.EncryptedKey ek) :: rest) :
    getSessionWithKeyRing L order keyPackage (entries, none) passphrase =
      if (tryDecryptionKeys L (bytesOfString passphrase) (L.DecryptionKeys entries) ek none).2.isSome
      then .returns none none
      else getSessionSplit order
        (some (tryDecryptionKeys L (bytesOfString passphrase) (L.DecryptionKeys entries) ek none).1) := by
  simp [getSessionWithKeyRing, hfirst]

/-- C7, what the code does: when the first packet is an encrypted-session-key
packet, the key ring parses, every candidate fails to unlock or to decrypt and
at least one candidate unlocks (so a decryption is tried and fails), both
functions return a nil `SessionSplit` together with a nil error: line 71 (and
112) returns the error variable of the key ring reader, not `decryptErr`. -/
theorem GetSession_failed_decryption_returns_nil_error (L : Lib)
    (order : List (String × CipherFunction)) (keyPackage privateKey : Bytes)
    (armoredKey passphrase : String) (ek : EncryptedKey) (rest : List NextResult)
    (entries : EntityList)
    (hfirst : L.NewReader keyPackage = .packet (.EncryptedKey ek) :: rest)
    (hring : L.ReadKeyRing privateKey = (entries, none))
    (harmored : L.ReadArmoredKeyRing armoredKey = (entries, none))
    (hfail : ∀ key ∈ L.DecryptionKeys entries,
      FailsToUnlock L (bytesOfString passphrase) key ∨
        FailsToDecrypt L (bytesOfString passphrase) ek key)
    (htried : ∃ key ∈ L.DecryptionKeys entries, ¬ FailsToUnlock L (bytesOfString passphrase) key) :
    GetSessionFromKeyPacketBinkeys L order keyPackage privateKey passphrase = .returns none none ∧
    GetSessionFromKeyPacket L order keyPackage armoredKey passphrase = .returns none none := by
  have hd := tryDecryptionKeys_all_fail L (bytesOfString passphrase) ek (L.DecryptionKeys entries)
    hfail ek none rfl rfl rfl (Or.inr htried)
  have hsome : (tryDecryptionKeys L (bytesOfString passphrase) (L.DecryptionKeys entries)
      ek none).2.isSome = true := Option.isSome_iff_ne_none.mpr hd
  constructor
  · rw [GetSessionFromKeyPacketBinkeys, hring,
      getSessionWithKeyRing_of_key_packet L order keyPackage entries passphrase ek rest hfirst,
      if_pos hsome]
  · rw [GetSessionFromKeyPacket, harmored,
      getSessionWithKeyRing_of_key_packet L order keyPackage entries passphrase ek rest hfirst,
      if_pos hsome]


/-- C7 at the toy key packet and a key ring whose only candidate is unprotected
and has other key material: both calls return nil and a nil error. -/
theorem GetSession_failed_decryption_returns_nil_error_witness :
    GetSessionFromKeyPacketBinkeys demoLib symKeyAlgos [1] [3] "" = .returns none none ∧
    GetSessionFromKeyPacket demoLib symKeyAlgos [1] "3" "" = .returns none none :=
  GetSession_failed_decryption_returns_nil_error demoLib symKeyAlgos [1] [3] "3" ""
    demoKeyPacket [] [demoEntity 3] rfl rfl rfl (by decide) (by decide)

/-- A candidate that fails, in terms of the library calls: it is protected and
`priv.Decrypt` refuses the passphrase; or it is unprotected and `ek.Decrypt`
with it returns an error; or it is protected, `priv.Decrypt` unlocks it and
`ek.Decrypt` with the key `priv.Decrypt` leaves returns an error. -/
theorem candidate_fails_of_calls (L : Lib) (rawPwd : Bytes) (ek : EncryptedKey) (key : Key)
    (h : (key.PrivateKey.Encrypted = true ∧
          (L.PrivateKeyDecrypt key.PrivateKey rawPwd).2 ≠ none) ∨
        (key.PrivateKey.Encrypted = false ∧
          (L.EncryptedKeyDecrypt ek.KeyId ek.Algo ek.encryptedMPI key.PrivateKey).err ≠ none) ∨
        (key.PrivateKey.Encrypted = true ∧
          (L.PrivateKeyDecrypt key.PrivateKey rawPwd).2 = none ∧
          (L.EncryptedKeyDecrypt ek.KeyId ek.Algo ek.encryptedMPI
            (L.PrivateKeyDecrypt key.PrivateKey rawPwd).1).err ≠ none)) :
    FailsToUnlock L rawPwd key ∨ FailsToDecrypt L rawPwd ek key := by
  unfold FailsToUnlock FailsToDecrypt unlock
  rcases h with ⟨henc, hu⟩ | ⟨henc, hd⟩ | ⟨henc, _, hd⟩
  · left
    rw [if_pos henc]
    exact hu
  · right
    rw [if_neg (by simp [henc])]
    exact hd
  · right
    rw [if_pos henc]
    exact hd

/-- A candidate that matches, in terms of the library calls: it is unprotected
and `ek.Decrypt` with it records the cipher `c` and the key `K` without error;
or it is protected, `priv.Decrypt` unlocks it with the passphrase and
`ek.Decrypt` with the key `priv.Decrypt` leaves does so. -/
theorem candidate_matches_of_calls (L : Lib) (rawPwd : Bytes) (ek : EncryptedKey) (key : Key)
    (c : CipherFunction) (K : Bytes)
    (h : (key.PrivateKey.Encrypted = false ∧
          L.EncryptedKeyDecrypt ek.KeyId ek.Algo ek.encryptedMPI key.PrivateKey =
            { recorded := some (c, K), err := none }) ∨
        (key.PrivateKey.Encrypted = true ∧
          (L.PrivateKeyDecrypt key.PrivateKey rawPwd).2 = none ∧
          L.EncryptedKeyDecrypt ek.KeyId ek.Algo ek.encryptedMPI
            (L.PrivateKeyDecrypt key.PrivateKey rawPwd).1 =
              { recorded := some (c, K), err := none })) :
    (unlock L rawPwd key.PrivateKey).2 = none ∧
    L.EncryptedKeyDecrypt ek.KeyId ek.Algo ek.encryptedMPI (unlock L rawPwd key.PrivateKey).1 =
      { recorded := some (c, K), err := none } := by
  unfold unlock
  rcases h with ⟨henc, hd⟩ | ⟨henc, hu, hd⟩
  · rw [if_neg (by simp [henc])]
    exact ⟨rfl, hd⟩
  · rw [if_pos henc]
    exact ⟨hu, hd⟩

/-- C8: when the key ring holds the candidates `front ++ [last]`, each
candidate of `front` fails (it is protected and `priv.Decrypt` refuses the
passphrase, or `ek.Decrypt` with the key, unlocked by `priv.Decrypt` if it was
protected, returns an error), and `last` matches (`ek.Decrypt` with it,
unlocked by `priv.Decrypt` with the passphrase if it is protected, records the
non-empty key `K` and the cipher identifier `c` without error), both
functions return the `SessionSplit` whose session is `K` and whose algorithm
is the reverse lookup of `c`, with a nil error. -/
theorem GetSession_last_candidate_matches (L : Lib) (order : List (String × CipherFunction))
    (keyPackage privateKey : Bytes) (armoredKey passphrase : String) (ek : EncryptedKey)
    (rest : List NextResult) (entries : EntityList) (front : List Key) (last : Key)
    (c : CipherFunction) (K : Bytes)
    (hfirst : L.NewReader keyPackage = .packet (.EncryptedKey ek) :: rest)
    (hring : L.ReadKeyRing privateKey = (entries, none))
    (harmored : L.ReadArmoredKeyRing armoredKey = (entries, none))
    (hkeys : L.DecryptionKeys entries = front ++ [last])
    (hfront : ∀ key ∈ front,
      (key.PrivateKey.Encrypted = true ∧
        (L.PrivateKeyDecrypt key.PrivateKey (bytesOfString passphrase)).2 ≠ none) ∨
      (key.PrivateKey.Encrypted = false ∧
        (L.EncryptedKeyDecrypt ek.KeyId ek.Algo ek.encryptedMPI key.PrivateKey).err ≠ none) ∨
      (key.PrivateKey.Encrypted = true ∧
        (L.PrivateKeyDecrypt key.PrivateKey (bytesOfString passphrase)).2 = none ∧
        (L.EncryptedKeyDecrypt ek.KeyId ek.Algo ek.encryptedMPI
          (L.PrivateKeyDecrypt key.PrivateKey (bytesOfString passphrase)).1).err ≠ none))
    (hlast :
      (last.PrivateKey.Encrypted = false ∧
        L.EncryptedKeyDecrypt ek.KeyId ek.Algo ek.encryptedMPI last.PrivateKey =
          { recorded := some (c, K), err := none }) ∨
      (last.PrivateKey.Encrypted = true ∧
        (L.PrivateKeyDecrypt last.PrivateKey (bytesOfString passphrase)).2 = none ∧
        L.EncryptedKeyDecrypt ek.KeyId ek.Algo ek.encryptedMPI
          (L.PrivateKeyDecrypt last.PrivateKey (bytesOfString passphrase)).1 =
            { recorded := some (c, K), err := none }))
    (hK : K ≠ []) :
    GetSessionFromKeyPacketBinkeys L order keyPackage privateKey passphrase =
      .returns (some { Session := K, Algo := getAlgo order c }) none ∧
    GetSessionFromKeyPacket L order keyPackage armoredKey passphrase =
      .returns (some { Session := K, Algo := getAlgo order c }) none ∧
    0 < K.length := by
  obtain ⟨hunlock, hdecrypt⟩ :=
    candidate_matches_of_calls L (bytesOfString passphrase) ek last c K hlast
  obtain ⟨ekf, ht, hkey, hcipher⟩ :=
    tryDecryptionKeys_last_matches L (bytesOfString passphrase) ek front last c K
      (fun key hkey => candidate_fails_of_calls L (bytesOfString passphrase) ek key
        (hfront key hkey))
      hunlock hdecrypt ek none rfl rfl rfl
  have hbody : getSessionWithKeyRing L order keyPackage (entries, none) passphrase =
      .returns (some { Session := K, Algo := getAlgo order c }) none := by
    rw [getSessionWithKeyRing_of_key_packet L order keyPackage entries passphrase ek rest hfirst,
      hkeys, ht]
    simp [getSessionSplit, hkey, hcipher, getAlgo]
  refine ⟨?_, ?_, List.length_pos.mpr hK⟩
  · rw [GetSessionFromKeyPacketBinkeys, hring, hbody]
  · rw [GetSessionFromKeyPacket, harmored, hbody]

/-- C8 at the toy key packet and a key ring of four candidates: the first two
are unprotected and have other key material, the third is protected and
unlocks with the passphrase "pw" but has other key material, the last is
protected, unlocks with "pw" and has the material of the packet. The toy
`ek.Decrypt` refuses a key that is still locked. -/
theorem GetSession_last_candidate_matches_witness :
    GetSessionFromKeyPacketBinkeys demoLib symKeyAlgos [1] [3, 5, 104, 107] "pw" =
      .returns (some { Session := [10, 20, 30], Algo := "aes256" }) none ∧
    GetSessionFromKeyPacket demoLib symKeyAlgos [1] "35eh" "pw" =
      .returns (some { Session := [10, 20, 30], Algo := "aes256" }) none ∧
    0 < [10, 20, 30].length :=
  GetSession_last_candidate_matches demoLib symKeyAlgos [1] [3, 5, 104, 107] "35eh" "pw"
    demoKeyPacket [] [demoEntity 3, demoEntity 5, demoEntity 104, demoEntity 107]
    (demoDecryptionKeys [demoEntity 3, demoEntity 5, demoEntity 104])
    { PublicKey := { KeyId := 107 }, PrivateKey := { Encrypted := true, material := 7 } }
    9 [10, 20, 30] rfl rfl (by decide) (by decide) (by decide) (by decide) (by decide)

/-- C9, what the code does: when the first packet of the key package is of a
type other than `*packet.EncryptedKey`, the type assertion of line 48 (and 89)
panics in both functions; no error is returned. -/
theorem GetSession_other_first_packet_panics (L : Lib) (order : List (String × CipherFunction))
    (keyPackage privateKey : Bytes) (armoredKey passphrase : String) (p : Packet)
    (rest : List NextResult)
    (hfirst : L.NewReader keyPackage = .packet p :: rest)
    (hp : ∀ ek, p ≠ .EncryptedKey ek) :
    GetSessionFromKeyPacketBinkeys L order keyPackage privateKey passphrase = .panics ∧
    GetSessionFromKeyPacket L order keyPackage armoredKey passphrase = .panics := by
  cases p with
  | EncryptedKey ek => exact absurd rfl (hp ek)
  | SymmetricKeyEncrypted q =>
    simp [GetSessionFromKeyPacketBinkeys, GetSessionFromKeyPacket, getSessionWithKeyRing, hfirst]
  | SymmetricallyEncrypted q =>
    simp [GetSessionFromKeyPacketBinkeys, GetSessionFromKeyPacket, getSessionWithKeyRing, hfirst]
  | other tag =>
    simp [GetSessionFromKeyPacketBinkeys, GetSessionFromKeyPacket, getSessionWithKeyRing, hfirst]

/-- C9 at a toy key package whose first packet is a symmetric-key-encrypted
session key packet: both calls panic. -/
theorem GetSession_other_first_packet_panics_witness :
    GetSessionFromKeyPacketBinkeys demoLib symKeyAlgos [2] [7] "" = .panics ∧
    GetSessionFromKeyPacket demoLib symKeyAlgos [2] "7" "" = .panics :=
  GetSession_other_first_packet_panics demoLib symKeyAlgos [2] [7] "7" ""
    (.SymmetricKeyEncrypted { CipherFunc := 9, encryptedKey := [1] }) [] rfl
    (fun ek h => by cases h)

/-- The part of C9 the code keeps: when the first call of `Next` fails, with
`io.EOF` on an empty key package or with another error, both functions return
that error and no `SessionSplit`. -/
theorem GetSession_first_read_failure (L : Lib) (order : List (String × CipherFunction))
    (keyPackage : Bytes) (ring : EntityList × Option Error) (passphrase : String) :
    (L.NewReader keyPackage = [] →
      getSessionWithKeyRing L order keyPackage ring passphrase = .returns none (some .EOF)) ∧
    (∀ msg rest, L.NewReader keyPackage = .failure msg :: rest →
      getSessionWithKeyRing L order keyPackage ring passphrase =
        .returns none (some (.lib msg))) := by
  constructor
  · intro h
    simp [getSessionWithKeyRing, h]
  · intro msg rest h
    simp [getSessionWithKeyRing, h]


/-- C11: when the first packet is an encrypted-session-key packet as the
reader parses it (no key recorded in it), the key ring parses and every
candidate is passphrase-protected and fails to unlock with the passphrase,
both functions return no `SessionSplit` and the error "can't decrypt key
packet key is nil" of `getSessionSplit`; they do not panic. -/
theorem GetSession_no_candidate_unlocks (L : Lib) (order : List (String × CipherFunction))
    (keyPackage privateKey : Bytes) (armoredKey passphrase : String) (ek : EncryptedKey)
    (rest : List NextResult) (entries : EntityList)
    (hfirst : L.NewReader keyPackage = .packet (.EncryptedKey ek) :: rest)
    (hparsed : ek.Key = none)
    (hring : L.ReadKeyRing privateKey = (entries, none))
    (harmored : L.ReadArmoredKeyRing armoredKey = (entries, none))
    (hlocked : ∀ key ∈ L.DecryptionKeys entries,
      key.PrivateKey.Encrypted = true ∧
        (L.PrivateKeyDecrypt key.PrivateKey (bytesOfString passphrase)).2 ≠ none) :
    GetSessionFromKeyPacketBinkeys L order keyPackage privateKey passphrase =
      .returns none (some (.new "can't decrypt key packet key is nil")) ∧
    GetSessionFromKeyPacket L order keyPackage armoredKey passphrase =
      .returns none (some (.new "can't decrypt key packet key is nil")) := by
  have hfail : ∀ key ∈ L.DecryptionKeys entries,
      FailsToUnlock L (bytesOfString passphrase) key := by
    intro key hkey
    obtain ⟨henc, herr⟩ := hlocked key hkey
    unfold FailsToUnlock unlock
    rw [if_pos henc]
    exact herr
  have hloop := tryDecryptionKeys_none_unlocks L (bytesOfString passphrase)
    (L.DecryptionKeys entries) hfail ek none
  have hbody : getSessionWithKeyRing L order keyPackage (entries, none) passphrase =
      .returns none (some (.new "can't decrypt key packet key is nil")) := by
    rw [getSessionWithKeyRing_of_key_packet L order keyPackage entries passphrase ek rest hfirst,
      hloop]
    simp [getSessionSplit, hparsed]
  constructor
  · rw [GetSessionFromKeyPacketBinkeys, hring, hbody]
  · rw [GetSessionFromKeyPacket, harmored, hbody]

/-- C11 at the toy key packet and a key ring of two protected candidates, with
a passphrase that is not theirs. -/
theorem GetSession_no_candidate_unlocks_witness :
    GetSessionFromKeyPacketBinkeys demoLib symKeyAlgos [1] [103, 107] "no" =
      .returns none (some (.new "can't decrypt key packet key is nil")) ∧
    GetSessionFromKeyPacket demoLib symKeyAlgos [1] "dh" "no" =
      .returns none (some (.new "can't decrypt key packet key is nil")) :=
  GetSession_no_candidate_unlocks demoLib symKeyAlgos [1] [103, 107] "dh" "no"
    demoKeyPacket [] [demoEntity 103, demoEntity 107] rfl rfl rfl (by decide) (by decide)

/-! ## Theorems: password path -/

/-- C12: for every `SessionSplit` and every library, `SymmetricKeyPacketWithPassword`
called with the empty password returns no bytes and the error "password can't
be empty"; the result is the same whatever the serializer of the library
would do, the call returns before line 227. -/
theorem SymmetricKeyPacketWithPassword_empty_password (L : CryptoLib)
    (sessionSplit : SessionSplit) :
    SymmetricKeyPacketWithPassword L sessionSplit "" =
      .returns none (some (.new "password can't be empty")) := by
  unfold SymmetricKeyPacketWithPassword
  have hlen : "".utf8ByteSize ≤ 0 := by decide
  simp only [hlen, if_true]

/-- C12 at the toy library and the session key `[10, 20, 30]`. -/
theorem SymmetricKeyPacketWithPassword_empty_password_witness :
    SymmetricKeyPacketWithPassword demoCrypto { Session := [10, 20, 30], Algo := "aes256" } "" =
      .returns none (some (.new "password can't be empty")) :=
  SymmetricKeyPacketWithPassword_empty_password demoCrypto
    { Session := [10, 20, 30], Algo := "aes256" }

theorem collectSymKeys_acc (l : List NextResult) :
    ∀ acc : List SymmetricKeyEncrypted, collectSymKeys l acc = acc ++ collectSymKeys l [] := by
  induction l with
  | nil => intro acc; simp [collectSymKeys]
  | cons r rest ih =>
    intro acc
    match r with
    | .failure msg => simp [collectSymKeys]
    | .packet (.SymmetricKeyEncrypted p) =>
      rw [collectSymKeys, collectSymKeys, ih (acc ++ [p]), ih ([] ++ [p])]
      simp
    | .packet (.EncryptedKey p) => rw [collectSymKeys, collectSymKeys, ih acc]
    | .packet (.SymmetricallyEncrypted p) => rw [collectSymKeys, collectSymKeys, ih acc]
    | .packet (.other tag) => rw [collectSymKeys, collectSymKeys, ih acc]

/-- The symmetric-key-encrypted session key packets of a list of packets, in
the order of the list. -/
theorem collectSymKeys_packets (ps : List Packet) (tail : List NextResult)
    (htail : tail = [] ∨ ∃ msg t, tail = .failure msg :: t) :
    collectSymKeys (ps.map .packet ++ tail) [] = ps.filterMap symKeyOf := by
  induction ps with
  | nil =>
    rcases htail with h | ⟨msg, t, h⟩
    · subst h; rfl
    · subst h; rfl
  | cons p ps ih =>
    cases p with
    | SymmetricKeyEncrypted s =>
      rw [List.map_cons, List.cons_append, collectSymKeys, collectSymKeys_acc, ih]
      rfl
    | EncryptedKey q => rw [List.map_cons, List.cons_append, collectSymKeys, ih]; rfl
    | SymmetricallyEncrypted q => rw [List.map_cons, List.cons_append, collectSymKeys, ih]; rfl
    | other tag => rw [List.map_cons, List.cons_append, collectSymKeys, ih]; rfl

/-- The loop over the collected packets returns the session of the first
packet the password decrypts. -/
theorem trySymKeys_first_success (L : CryptoLib) (order : List (String × CipherFunction))
    (pwdRaw : Bytes) (front back : List SymmetricKeyEncrypted) (s : SymmetricKeyEncrypted)
    (key : Bytes) (cipher : CipherFunction)
    (hfront : ∀ q ∈ front, (L.SymmetricKeyEncryptedDecrypt q pwdRaw).2.2 ≠ none)
    (hs : L.SymmetricKeyEncryptedDecrypt s pwdRaw = (key, cipher, none)) :
    trySymKeys L order pwdRaw (front ++ s :: back) =
      some { Session := key, Algo := getAlgo order cipher } := by
  induction front with
  | nil => simp [trySymKeys, hs]
  | cons q front ih =>
    have hq := hfront q (List.mem_cons_self _ _)
    rw [List.cons_append, trySymKeys]
    rcases hd : L.SymmetricKeyEncryptedDecrypt q pwdRaw with ⟨k, c, e⟩
    cases e with
    | none => rw [hd] at hq; exact absurd rfl hq
    | some e => exact ih (fun q' hq' => hfront q' (List.mem_cons_of_mem _ hq'))

/-- The loop over the collected packets ends without a return when the password
decrypts none of them. -/
theorem trySymKeys_all_fail (L : CryptoLib) (order : List (String × CipherFunction))
    (pwdRaw : Bytes) (symKeys : List SymmetricKeyEncrypted)
    (hfail : ∀ q ∈ symKeys, (L.SymmetricKeyEncryptedDecrypt q pwdRaw).2.2 ≠ none) :
    trySymKeys L order pwdRaw symKeys = none := by
  induction symKeys with
  | nil => rfl
  | cons q rest ih =>
    have hq := hfail q (List.mem_cons_self _ _)
    rw [trySymKeys]
    rcases hd : L.SymmetricKeyEncryptedDecrypt q pwdRaw with ⟨k, c, e⟩
    cases e with
    | none => rw [hd] at hq; exact absurd rfl hq
    | some e => exact ih (fun q' hq' => hfail q' (List.mem_cons_of_mem _ hq'))


theorem GetSessionFromSymmetricPacket_of_collected (L : CryptoLib)
    (order : List (String × CipherFunction)) (keyPackage : Bytes) (password : String)
    (symKeys : List SymmetricKeyEncrypted)
    (hcollect : collectSymKeys (L.NewReader keyPackage) [] = symKeys) :
    GetSessionFromSymmetricPacket L order keyPackage password =
      match trySymKeys L order (bytesOfString password) symKeys with
      | some split => .returns (some split) none
      | none => .returns none (some (.new "password incorrect")) := by
  unfold GetSessionFromSymmetricPacket sliceOfString
  simp only [hcollect]
  cases symKeys with
  | nil => simp [trySymKeys]
  | cons q rest => simp

/-- The parts of C13 the code keeps: when no symmetric-key-encrypted session
key packet is collected, or the password decrypts none of those collected,
the call returns the error "password incorrect". -/
theorem GetSessionFromSymmetricPacket_password_incorrect (L : CryptoLib)
    (order : List (String × CipherFunction)) (keyPackage : Bytes) (password : String)
    (hfail : ∀ q ∈ collectSymKeys (L.NewReader keyPackage) [],
      (L.SymmetricKeyEncryptedDecrypt q (bytesOfString password)).2.2 ≠ none) :
    GetSessionFromSymmetricPacket L order keyPackage password =
      .returns none (some (.new "password incorrect")) := by
  rw [GetSessionFromSymmetricPacket_of_collected L order keyPackage password _ rfl,
    trySymKeys_all_fail L order _ _ hfail]

/-- C13, what the code does: the slice `[]byte(password)` of the empty password
is not nil, so the test of line 195 passes and the empty password is tried;
when the first packet of the key package is a symmetric-key-encrypted session
key packet that `s.Decrypt` opens with the empty password, the call returns a
`SessionSplit` and a nil error, not the error "password incorrect". -/
theorem GetSessionFromSymmetricPacket_tries_empty_password (L : CryptoLib)
    (order : List (String × CipherFunction)) (keyPackage : Bytes)
    (s : SymmetricKeyEncrypted) (rest : List NextResult) (key : Bytes)
    (cipher : CipherFunction)
    (hstream : L.NewReader keyPackage = .packet (.SymmetricKeyEncrypted s) :: rest)
    (hdecrypt : L.SymmetricKeyEncryptedDecrypt s [] = (key, cipher, none)) :
    GetSessionFromSymmetricPacket L order keyPackage "" =
      .returns (some { Session := key, Algo := getAlgo order cipher }) none := by
  have hcollect : collectSymKeys (L.NewReader keyPackage) [] =
      [] ++ s :: collectSymKeys rest [] := by
    rw [hstream, collectSymKeys, collectSymKeys_acc]
    rfl
  have hpwd : bytesOfString "" = [] := by decide
  rw [GetSessionFromSymmetricPacket_of_collected L order keyPackage "" _ hcollect, hpwd,
    trySymKeys_first_success L order [] [] _ s key cipher (fun q hq => by cases hq) hdecrypt]

/-- C13 at a toy key package whose packet was made with the empty password: the
call with the empty password returns the session key. -/
theorem GetSessionFromSymmetricPacket_tries_empty_password_witness :
    GetSessionFromSymmetricPacket demoCrypto symKeyAlgos [8] "" =
      .returns (some { Session := [1, 2], Algo := "aes128" }) none :=
  GetSessionFromSymmetricPacket_tries_empty_password demoCrypto symKeyAlgos [8]
    { CipherFunc := 7, encryptedKey := [0, 1, 2] } [] [1, 2] 7 rfl rfl

/-- C19, as stated, fails: in the toy stream `[4, 6]` the reader fails on the
first packet and then yields a symmetric-key-encrypted session key packet
that the password "p" decrypts; the loop of lines 179-191 stops at the
failure, collects nothing, and the call returns "password incorrect". -/
theorem GetSessionFromSymmetricPacket_stops_at_read_failure :
    demoCrypto.NewReader [4, 6] =
      [.failure "unexpected EOF",
       .packet (.SymmetricKeyEncrypted { CipherFunc := 9, encryptedKey := [1, 10, 20, 30] })] ∧
    demoCrypto.SymmetricKeyEncryptedDecrypt { CipherFunc := 9, encryptedKey := [1, 10, 20, 30] }
      (bytesOfString "p") = ([10, 20, 30], 9, none) ∧
    GetSessionFromSymmetricPacket demoCrypto symKeyAlgos [4, 6] "p" =
      .returns none (some (.new "password incorrect")) := by
  decide

/-- C19, amended: for every key-package packet stream and every password,
`GetSessionFromSymmetricPacket` collects every symmetric-key-encrypted session
key packet among the packets `ps` the reader yields before its first error
(the end of the stream or any other), passing over all other packets; and if
the password decrypts one of them, it returns the `SessionSplit` built from
the first such packet in the order met: the session is the key that packet
decrypts to, the algorithm is `getAlgo` of the cipher identifier of that
decryption. -/
theorem GetSessionFromSymmetricPacket_first_success (L : CryptoLib)
    (order : List (String × CipherFunction)) (keyPackage : Bytes) (password : String)
    (ps : List Packet) (tail : List NextResult)
    (front back : List SymmetricKeyEncrypted) (s : SymmetricKeyEncrypted) (key : Bytes)
    (cipher : CipherFunction)
    (hstream : L.NewReader keyPackage = ps.map .packet ++ tail)
    (htail : tail = [] ∨ ∃ msg t, tail = .failure msg :: t)
    (hsym : ps.filterMap symKeyOf = front ++ s :: back)
    (hfront : ∀ q ∈ front,
      (L.SymmetricKeyEncryptedDecrypt q (bytesOfString password)).2.2 ≠ none)
    (hs : L.SymmetricKeyEncryptedDecrypt s (bytesOfString password) = (key, cipher, none)) :
    collectSymKeys (L.NewReader keyPackage) [] = ps.filterMap symKeyOf ∧
    GetSessionFromSymmetricPacket L order keyPackage password =
      .returns (some { Session := key, Algo := getAlgo order cipher }) none := by
  have hcollect : collectSymKeys (L.NewReader keyPackage) [] = ps.filterMap symKeyOf := by
    rw [hstream, collectSymKeys_packets ps tail htail]
  refine ⟨hcollect, ?_⟩
  rw [GetSessionFromSymmetricPacket_of_collected L order keyPackage password _ hcollect, hsym,
    trySymKeys_first_success L order _ front back s key cipher hfront hs]

/-- C19, amended, at the toy stream `[1, 8, 6, 4, 6]` and the password "p":
the key packet is passed over, the packet of byte 8 does not open, the packet
of byte 6 does, and the packet after the failure is not read. -/
theorem GetSessionFromSymmetricPacket_first_success_witness :
    collectSymKeys (demoCrypto.NewReader [1, 8, 6, 4, 6]) [] =
      [{ CipherFunc := 7, encryptedKey := [0, 1, 2] },
       { CipherFunc := 9, encryptedKey := [1, 10, 20, 30] }] ∧
    GetSessionFromSymmetricPacket demoCrypto symKeyAlgos [1, 8, 6, 4, 6] "p" =
      .returns (some { Session := [10, 20, 30], Algo := "aes256" }) none :=
  GetSessionFromSymmetricPacket_first_success demoCrypto symKeyAlgos [1, 8, 6, 4, 6] "p"
    [.EncryptedKey demoKeyPacket,
     .SymmetricKeyEncrypted { CipherFunc := 7, encryptedKey := [0, 1, 2] },
     .SymmetricKeyEncrypted { CipherFunc := 9, encryptedKey := [1, 10, 20, 30] }]
    [.failure "unexpected EOF",
     .packet (.SymmetricKeyEncrypted { CipherFunc := 9, encryptedKey := [1, 10, 20, 30] })]
    [{ CipherFunc := 7, encryptedKey := [0, 1, 2] }] []
    { CipherFunc := 9, encryptedKey := [1, 10, 20, 30] } [10, 20, 30] 9
    rfl (Or.inr ⟨_, _, rfl⟩) rfl (by decide) (by decide)


/-! ## Theorems: public-key path of the encryptor -/

theorem rangeSubkeys_none_qualifies (subkeys : List Subkey) (pub : Option PublicKey)
    (hnone : ∀ sk ∈ subkeys, subkeyQualifies sk.Sig = false) :
    rangeSubkeys subkeys pub = pub := by
  induction subkeys with
  | nil => rfl
  | cons sk rest ih =>
    rw [rangeSubkeys, hnone sk (List.mem_cons_self _ _)]
    simp only [Bool.false_eq_true, if_false]
    exact ih (fun q hq => hnone q (List.mem_cons_of_mem _ hq))

theorem rangeSubkeys_first_qualifying (front back : List Subkey) (sk : Subkey)
    (pub : Option PublicKey)
    (hfront : ∀ q ∈ front, subkeyQualifies q.Sig = false)
    (hsk : subkeyQualifies sk.Sig = true) :
    rangeSubkeys (front ++ sk :: back) pub = some sk.PublicKey := by
  induction front with
  | nil => rw [List.nil_append, rangeSubkeys, if_pos hsk]
  | cons q front ih =>
    rw [List.cons_append, rangeSubkeys, hfront q (List.mem_cons_self _ _)]
    simp only [Bool.false_eq_true, if_false]
    exact ih (fun q' hq' => hfront q' (List.mem_cons_of_mem _ hq'))

/-- The body of `KeyPacketWithPublicKeyBin` once the key ring is not empty and
the scan has selected the key `pub`. -/
theorem KeyPacketWithPublicKeyBin_of_selected (L : CryptoLib) (sessionSplit : SessionSplit)
    (publicKey : Bytes) (entries : EntityList) (rerr : Option Error) (pub : PublicKey)
    (hring : L.ReadKeyRing publicKey = (entries, rerr))
    (hsel : rangeEntries entries none = some pub) :
    KeyPacketWithPublicKeyBin L sessionSplit publicKey =
      match L.SerializeEncryptedKey pub (cipherFunc sessionSplit.Algo) sessionSplit.Session with
      | (_, some _) => .returns none (some (.new "cannot set key: key ring is empty"))
      | (out, none) => .returns (some out) none := by
  have hne : ¬ entries.length = 0 := by
    intro h
    rw [List.length_eq_zero.mp h] at hsel
    simp [rangeEntries] at hsel
  unfold KeyPacketWithPublicKeyBin
  simp only [hring, hne, if_false, hsel]

/-- The selection in an entity without a subkey that passes the test of line
143, whose first identity has a self-signature with valid flags: the primary
key is taken, whatever the encryption flags are. -/
theorem rangeEntries_takes_primary_key_with_valid_flags (e : Entity) (rest : EntityList)
    (name : String) (i : Identity) (ids : List (String × Identity))
    (hsub : ∀ sk ∈ e.Subkeys, subkeyQualifies sk.Sig = false)
    (hid : e.Identities = (name, i) :: ids)
    (hvalid : i.SelfSignature.FlagsValid = true) :
    rangeEntries (e :: rest) none = some e.PrimaryKey := by
  rw [rangeEntries, rangeSubkeys_none_qualifies e.Subkeys none hsub]
  simp [identityFallback, hid, identityQualifies, hvalid]

/-- C14, what the code does: a subkey whose flags are absent or allow
encryption is selected as the claim says, but when no subkey of the entity
passes and the self-signature of the first identity has valid flags without
either encryption flag, line 153 (whose `FlagsValid` lacks the negation of
line 143) still takes the primary key, and the call returns the key packet
the serializer makes for it. -/
theorem KeyPacketWithPublicKeyBin_takes_unflagged_primary_key (L : CryptoLib)
    (sessionSplit : SessionSplit) (publicKey : Bytes) (e : Entity) (rest : EntityList)
    (rerr : Option Error) (name : String) (i : Identity) (ids : List (String × Identity))
    (out : Bytes)
    (hring : L.ReadKeyRing publicKey = (e :: rest, rerr))
    (hsub : ∀ sk ∈ e.Subkeys, subkeyQualifies sk.Sig = false)
    (hid : e.Identities = (name, i) :: ids)
    (hvalid : i.SelfSignature.FlagsValid = true)
    (hstorage : i.SelfSignature.FlagEncryptStorage = false)
    (hcomm : i.SelfSignature.FlagEncryptCommunications = false)
    (hser : L.SerializeEncryptedKey e.PrimaryKey (cipherFunc sessionSplit.Algo)
      sessionSplit.Session = (out, none)) :
    (∀ front back sk pub, (∀ q ∈ front, subkeyQualifies q.Sig = false) →
      (sk.Sig.FlagsValid = false ∨ sk.Sig.FlagEncryptStorage = true ∨
        sk.Sig.FlagEncryptCommunications = true) →
      rangeSubkeys (front ++ sk :: back) pub = some sk.PublicKey) ∧
    i.SelfSignature.FlagEncryptStorage = false ∧
    i.SelfSignature.FlagEncryptCommunications = false ∧
    identityFallback e (rangeSubkeys e.Subkeys none) = some e.PrimaryKey ∧
    KeyPacketWithPublicKeyBin L sessionSplit publicKey = .returns (some out) none := by
  refine ⟨?_, hstorage, hcomm, ?_, ?_⟩
  · intro front back sk pub hfront hsk
    apply rangeSubkeys_first_qualifying front back sk pub hfront
    unfold subkeyQualifies
    rcases hsk with h | h | h <;> simp [h]
  · rw [rangeSubkeys_none_qualifies e.Subkeys none hsub]
    simp [identityFallback, hid, identityQualifies, hvalid]
  · rw [KeyPacketWithPublicKeyBin_of_selected L sessionSplit publicKey (e :: rest) rerr
      e.PrimaryKey hring
      (rangeEntries_takes_primary_key_with_valid_flags e rest name i ids hsub hid hvalid),
      hser]

/-- C14 at the toy key ring `[207]`, one entity without subkeys whose identity
is that of a key made for signing only: a key packet is made for its primary
key. -/
theorem KeyPacketWithPublicKeyBin_takes_unflagged_primary_key_witness :
    KeyPacketWithPublicKeyBin demoCrypto { Session := [10, 20, 30], Algo := "aes256" } [207] =
      .returns (some [0, 1, 7, 9, 10, 20, 30, 0, 60]) none :=
  (KeyPacketWithPublicKeyBin_takes_unflagged_primary_key demoCrypto
    { Session := [10, 20, 30], Algo := "aes256" } [207] (demoPublicEntity 207) [] none
    "alice" demoSigner [] [0, 1, 7, 9, 10, 20, 30, 0, 60]
    rfl (by decide) rfl rfl rfl rfl (by decide)).2.2.2.2


/-- The parts of C15 the code keeps: an empty key ring gives the error "cannot
set key: key ring is empty", and a key ring in which no subkey passes the test
of line 143 and no entity has a first identity that passes the test of line
153 gives the error "cannot set key: no public key available". -/
theorem KeyPacketWithPublicKeyBin_no_public_key (L : CryptoLib) (sessionSplit : SessionSplit)
    (publicKey : Bytes) (entries : EntityList) (rerr : Option Error)
    (hring : L.ReadKeyRing publicKey = (entries, rerr)) :
    (entries = [] → KeyPacketWithPublicKeyBin L sessionSplit publicKey =
      .returns none (some (.new "cannot set key: key ring is empty"))) ∧
    (entries ≠ [] →
      (∀ e ∈ entries, (∀ sk ∈ e.Subkeys, subkeyQualifies sk.Sig = false) ∧
        (e.Identities = [] ∨ ∃ name i ids, e.Identities = (name, i) :: ids ∧
          identityQualifies i.SelfSignature = false)) →
      KeyPacketWithPublicKeyBin L sessionSplit publicKey =
        .returns none (some (.new "cannot set key: no public key available"))) := by
  constructor
  · intro h
    subst h
    simp [KeyPacketWithPublicKeyBin, hring]
  · intro hne hall
    have hsel : rangeEntries entries none = none := by
      clear hring hne
      induction entries with
      | nil => rfl
      | cons e rest ih =>
        obtain ⟨hsub, hids⟩ := hall e (List.mem_cons_self _ _)
        rw [rangeEntries, rangeSubkeys_none_qualifies e.Subkeys none hsub]
        have hfb : identityFallback e none = none := by
          rcases hids with h | ⟨name, i, ids, h, hq⟩
          · simp [identityFallback, h]
          · simp [identityFallback, h, hq]
        simp only [hfb, Option.isSome_none, Bool.false_eq_true, if_false]
        exact ih (fun e' he' => hall e' (List.mem_cons_of_mem _ he'))
    have hlen : ¬ entries.length = 0 := fun h => hne (List.length_eq_zero.mp h)
    unfold KeyPacketWithPublicKeyBin
    simp only [hring, hlen, if_false, hsel]

/-- C15, what the code does: when the first entity of the key ring has no
subkey that qualifies and the self-signature of its first identity has valid
flags without either encryption flag, so that its primary key is not
encryption-capable, the scan still stops at that primary key: the call does
not return the error "cannot set key: no public key available", whatever the
rest of the key ring holds, and its result is the outcome of the serializer
for that primary key. -/
theorem KeyPacketWithPublicKeyBin_stops_at_unflagged_primary_key (L : CryptoLib)
    (sessionSplit : SessionSplit) (publicKey : Bytes) (e : Entity) (rest : EntityList)
    (rerr : Option Error) (name : String) (i : Identity) (ids : List (String × Identity))
    (hring : L.ReadKeyRing publicKey = (e :: rest, rerr))
    (hsub : ∀ sk ∈ e.Subkeys, subkeyQualifies sk.Sig = false)
    (hid : e.Identities = (name, i) :: ids)
    (hvalid : i.SelfSignature.FlagsValid = true)
    (hstorage : i.SelfSignature.FlagEncryptStorage = false)
    (hcomm : i.SelfSignature.FlagEncryptCommunications = false) :
    (i.SelfSignature.FlagEncryptStorage || i.SelfSignature.FlagEncryptCommunications) = false ∧
    KeyPacketWithPublicKeyBin L sessionSplit publicKey ≠
      .returns none (some (.new "cannot set key: no public key available")) ∧
    KeyPacketWithPublicKeyBin L sessionSplit publicKey =
      match L.SerializeEncryptedKey e.PrimaryKey (cipherFunc sessionSplit.Algo)
        sessionSplit.Session with
      | (_, some _) => .returns none (some (.new "cannot set key: key ring is empty"))
      | (out, none) => .returns (some out) none := by
  have hcall := KeyPacketWithPublicKeyBin_of_selected L sessionSplit publicKey (e :: rest) rerr
    e.PrimaryKey hring
    (rangeEntries_takes_primary_key_with_valid_flags e rest name i ids hsub hid hvalid)
  refine ⟨by simp [hstorage, hcomm], ?_, hcall⟩
  rw [hcall]
  rcases L.SerializeEncryptedKey e.PrimaryKey (cipherFunc sessionSplit.Algo)
    sessionSplit.Session with ⟨out, err⟩
  cases err <;> simp

/-- C15 at the toy key ring `[207, 105]`: the first entity is that of a key made
for signing only, the second has a subkey without flags; the key packet is
made for the primary key of the first, of key id 7, not for the subkey of the
second, of key id 5. -/
theorem KeyPacketWithPublicKeyBin_stops_at_unflagged_primary_key_witness :
    KeyPacketWithPublicKeyBin demoCrypto { Session := [10, 20, 30], Algo := "aes256" }
      [207, 105] = .returns (some [0, 1, 7, 9, 10, 20, 30, 0, 60]) none :=
  ((KeyPacketWithPublicKeyBin_stops_at_unflagged_primary_key demoCrypto
    { Session := [10, 20, 30], Algo := "aes256" } [207, 105] (demoPublicEntity 207)
    [demoPublicEntity 105] none "alice" demoSigner [] rfl (by decide) rfl rfl rfl rfl).2.2).trans
    (by decide)

/-- C16, what the code does: when the key ring yields the key `pub` and the
serializer fails with any error, line 166 wraps that error and line 167
returns a new error with the message of the empty key ring: the call returns
no bytes and the error "cannot set key: key ring is empty", which does not
carry the failure of the serializer. -/
theorem KeyPacketWithPublicKeyBin_serializer_failure (L : CryptoLib)
    (sessionSplit : SessionSplit) (publicKey : Bytes) (entries : EntityList)
    (rerr : Option Error) (pub : PublicKey) (out : Bytes) (cause : Error)
    (hring : L.ReadKeyRing publicKey = (entries, rerr))
    (hsel : rangeEntries entries none = some pub)
    (hser : L.SerializeEncryptedKey pub (cipherFunc sessionSplit.Algo) sessionSplit.Session =
      (out, some cause)) :
    KeyPacketWithPublicKeyBin L sessionSplit publicKey =
      .returns none (some (.new "cannot set key: key ring is empty")) := by
  rw [KeyPacketWithPublicKeyBin_of_selected L sessionSplit publicKey entries rerr pub hring hsel,
    hser]

/-- C16 at the toy key ring `[99]`, whose key the toy serializer refuses with
"unsupported public key algorithm": the call returns the error of the empty
key ring. -/
theorem KeyPacketWithPublicKeyBin_serializer_failure_witness :
    demoCrypto.SerializeEncryptedKey { KeyId := 99 } (cipherFunc "aes256") [10, 20, 30] =
      ([], some (.lib "unsupported public key algorithm")) ∧
    KeyPacketWithPublicKeyBin demoCrypto { Session := [10, 20, 30], Algo := "aes256" } [99] =
      .returns none (some (.new "cannot set key: key ring is empty")) :=
  ⟨by decide,
    KeyPacketWithPublicKeyBin_serializer_failure demoCrypto
      { Session := [10, 20, 30], Algo := "aes256" } [99] [demoPublicEntity 99] none
      { KeyId := 99 } [] (.lib "unsupported public key algorithm") rfl (by decide) (by decide)⟩


/-! ## Theorems: round trip -/

theorem walkPackets_encryptedKey_keyed (p cur : EncryptedKey) (key : Bytes)
    (rest : List NextResult) (outSplit : EncryptedSplit) (hcur : cur.Key = some key) :
    walkPackets (.packet (.EncryptedKey p) :: rest) (some cur) outSplit =
      walkPackets rest (some cur) outSplit := by
  rw [walkPackets]
  simp [hcur]

theorem walkPackets_encryptedKey_unkeyed (p : EncryptedKey) (ek : Option EncryptedKey)
    (rest : List NextResult) (outSplit : EncryptedSplit)
    (hek : ∀ c, ek = some c → c.Key = none) :
    walkPackets (.packet (.EncryptedKey p) :: rest) ek outSplit =
      walkPackets rest (some p) outSplit := by
  cases ek with
  | none => rw [walkPackets]; rfl
  | some c => rw [walkPackets]; simp [hek c rfl]

/-- The key packet in hand after the walk over a stretch `l` of the stream
whose symmetrically encrypted packets can be read: it is unchanged if the
stretch has no key packet, or if the one in hand already holds a key; and it
holds no key if none of the stretch and not the one in hand did. -/
theorem walkPackets_key_choice (l l2 : List NextResult)
    (hread : ∀ q, NextResult.packet (.SymmetricallyEncrypted q) ∈ l → q.readErr = none) :
    ∀ (ek : Option EncryptedKey) (outSplit : EncryptedSplit),
      ∃ ek1 out1, walkPackets (l ++ l2) ek outSplit = walkPackets l2 ek1 out1 ∧
        ((∀ k, NextResult.packet (.EncryptedKey k) ∉ l) → ek1 = ek) ∧
        ((∃ c key, ek = some c ∧ c.Key = some key) → ek1 = ek) ∧
        ((∀ k, NextResult.packet (.EncryptedKey k) ∈ l → k.Key = none) →
          (∀ c, ek = some c → c.Key = none) → ∀ c, ek1 = some c → c.Key = none) := by
  induction l with
  | nil =>
    intro ek outSplit
    exact ⟨ek, outSplit, rfl, fun _ => rfl, fun _ => rfl, fun _ h => h⟩
  | cons r l ih =>
    have hread' : ∀ q, NextResult.packet (.SymmetricallyEncrypted q) ∈ l → q.readErr = none :=
      fun q hq => hread q (List.mem_cons_of_mem _ hq)
    have hpass : ∀ (ek : Option EncryptedKey) (outSplit out' : EncryptedSplit),
        (∀ k, r ≠ NextResult.packet (.EncryptedKey k)) →
        walkPackets (r :: (l ++ l2)) ek outSplit = walkPackets (l ++ l2) ek out' →
        ∃ ek1 out1, walkPackets (r :: l ++ l2) ek outSplit = walkPackets l2 ek1 out1 ∧
          ((∀ k, NextResult.packet (.EncryptedKey k) ∉ r :: l) → ek1 = ek) ∧
          ((∃ c key, ek = some c ∧ c.Key = some key) → ek1 = ek) ∧
          ((∀ k, NextResult.packet (.EncryptedKey k) ∈ r :: l → k.Key = none) →
            (∀ c, ek = some c → c.Key = none) → ∀ c, ek1 = some c → c.Key = none) := by
      intro ek outSplit out' _ hw
      obtain ⟨ek1, out1, h1, h2, h3, h4⟩ := ih hread' ek out'
      refine ⟨ek1, out1, by rw [List.cons_append, hw, h1], ?_, h3, ?_⟩
      · exact fun h => h2 (fun k hk => h k (List.mem_cons_of_mem _ hk))
      · exact fun h hek => h4 (fun k hk => h k (List.mem_cons_of_mem _ hk)) hek
    intro ek outSplit
    match r with
    | .failure msg =>
      exact hpass ek outSplit outSplit (fun k h => by cases h) (by rw [walkPackets])
    | .packet (.SymmetricKeyEncrypted p) =>
      exact hpass ek outSplit outSplit (fun k h => by cases h) (by rw [walkPackets])
    | .packet (.other tag) =>
      exact hpass ek outSplit outSplit (fun k h => by cases h) (by rw [walkPackets])
    | .packet (.SymmetricallyEncrypted p) =>
      exact hpass ek outSplit { outSplit with DataPacket := reframe p.Contents }
        (fun k h => by cases h)
        (walkPackets_symmetricallyEncrypted p _ ek outSplit (hread p (List.mem_cons_self _ _)))
    | .packet (.EncryptedKey p) =>
      have hmem : ¬ ∀ k, NextResult.packet (.EncryptedKey k) ∉
          NextResult.packet (.EncryptedKey p) :: l :=
        fun h => h p (List.mem_cons_self _ _)
      by_cases hkeyed : ∃ c key, ek = some c ∧ c.Key = some key
      · obtain ⟨c, key, hc, hk⟩ := hkeyed
        subst hc
        obtain ⟨ek1, out1, h1, _, h3, _⟩ := ih hread' (some c) outSplit
        refine ⟨ek1, out1, ?_, fun h => absurd h hmem, h3, ?_⟩
        · rw [List.cons_append, walkPackets_encryptedKey_keyed p c key _ outSplit hk, h1]
        · intro _ hek
          have := hek c rfl
          rw [hk] at this
          cases this
      · have hek : ∀ c, ek = some c → c.Key = none := by
          intro c hc
          cases hk : c.Key with
          | none => rfl
          | some key => exact absurd ⟨c, key, hc, hk⟩ hkeyed
        obtain ⟨ek1, out1, h1, _, _, h4⟩ := ih hread' (some p) outSplit
        refine ⟨ek1, out1, ?_, fun h => absurd h hmem, fun h => absurd h hkeyed, ?_⟩
        · rw [List.cons_append, walkPackets_encryptedKey_unkeyed p ek _ outSplit hek, h1]
        · intro hall _
          apply h4 (fun k hk => hall k (List.mem_cons_of_mem _ hk))
          intro c hc
          cases hc
          exact hall p (List.mem_cons_self _ _)

/-- C18, as stated, fails: the toy message "15" holds two key packets, neither
with a key recorded in it; the key packet of the result is the serialization
of the second, not of the first. -/
theorem SeparateKeyAndData_keeps_second_key_packet :
    demoLib.NewReader [1, 5] =
      [.packet (.EncryptedKey demoKeyPacket),
       .packet (.EncryptedKey
         { KeyId := 7, Algo := 1, encryptedMPI := [9, 0, 0], CipherFunc := 0, Key := none })] ∧
    SeparateKeyAndData demoLib "15" =
      .returns (some { DataPacket := [], KeyPacket := [193, 7, 1, 9, 0, 0] }) none ∧
    demoLib.EncryptedKeySerialize demoKeyPacket ≠ [193, 7, 1, 9, 0, 0] := by
  decide

/-- C18, amended: `SeparateKeyAndData` keeps exactly one key packet under a
last-wins policy among packets that hold no key: when the key packets of the
stream before the last one hold no recovered key material, the key packet of
the result is the serialization of the last one met; and a remembered packet
that already holds key material is never replaced. -/
theorem SeparateKeyAndData_keeps_last_key_packet (L : Lib) (encrypted : String)
    (encryptedRaw : Bytes) (pre post : List NextResult) (k : EncryptedKey)
    (harmor : L.UnArmor encrypted = (encryptedRaw, none))
    (hstream : L.NewReader encryptedRaw = pre ++ .packet (.EncryptedKey k) :: post)
    (hread : ∀ q, NextResult.packet (.SymmetricallyEncrypted q) ∈ pre ++ post →
      q.readErr = none)
    (hunkeyed : ∀ c, NextResult.packet (.EncryptedKey c) ∈ pre → c.Key = none)
    (hpost : ∀ c, NextResult.packet (.EncryptedKey c) ∉ post) :
    (∃ split, SeparateKeyAndData L encrypted = .returns (some split) none ∧
      split.KeyPacket = L.EncryptedKeySerialize k) ∧
    (∀ (l : List NextResult) (cur : EncryptedKey) (key : Bytes) (outSplit : EncryptedSplit),
      cur.Key = some key →
      (∀ q, NextResult.packet (.SymmetricallyEncrypted q) ∈ l → q.readErr = none) →
      ∃ out1, walkPackets l (some cur) outSplit = .ok (some cur, out1, none)) := by
  constructor
  · obtain ⟨ek1, out1, h1, _, _, h4⟩ :=
      walkPackets_key_choice pre (.packet (.EncryptedKey k) :: post)
        (fun q hq => hread q (List.mem_append_left _ hq)) none
        { DataPacket := [], KeyPacket := [] }
    have hek1 : ∀ c, ek1 = some c → c.Key = none := h4 hunkeyed (fun c hc => by cases hc)
    obtain ⟨ek2, out2, h1', h2', _, _⟩ :=
      walkPackets_key_choice post [] (fun q hq => hread q (List.mem_append_right _ hq))
        (some k) out1
    have hek2 : ek2 = some k := h2' hpost
    subst hek2
    have hwalk : walkPackets (L.NewReader encryptedRaw) none
        { DataPacket := [], KeyPacket := [] } = .ok (some k, out2, none) := by
      rw [hstream, h1, walkPackets_encryptedKey_unkeyed k ek1 post out1 hek1]
      rw [List.append_nil] at h1'
      rw [h1', walkPackets_nil]
    refine ⟨{ out2 with KeyPacket := L.EncryptedKeySerialize k }, ?_, rfl⟩
    simp only [SeparateKeyAndData, harmor, hwalk]
  · intro l cur key outSplit hcur hl
    obtain ⟨ek1, out1, h1, _, h3, _⟩ := walkPackets_key_choice l [] hl (some cur) outSplit
    have hek1 : ek1 = some cur := h3 ⟨cur, key, rfl, hcur⟩
    subst hek1
    rw [List.append_nil, walkPackets_nil] at h1
    exact ⟨out1, h1⟩

/-- C18, amended, at the toy message "135": a key packet, a data packet and a
second key packet; the key packet of the result is the serialization of the
second key packet. -/
theorem SeparateKeyAndData_keeps_last_key_packet_witness :
    ∃ split, SeparateKeyAndData demoLib "135" = .returns (some split) none ∧
      split.KeyPacket = [193, 7, 1, 9, 0, 0] :=
  (SeparateKeyAndData_keeps_last_key_packet demoLib "135" [1, 3, 5]
    [.packet (.EncryptedKey demoKeyPacket),
     .packet (.SymmetricallyEncrypted { MDC := true, Contents := [10, 20, 30], readErr := none })]
    [] { KeyId := 7, Algo := 1, encryptedMPI := [9, 0, 0], CipherFunc := 0, Key := none }
    rfl rfl (by intro q hq; simp at hq; rw [hq])
    (by intro c hc; simp at hc; rw [hc]; rfl) (by intro c hc; cases hc)).1

/-- C20, what the code does: when the packet reader reports a failure other
than the end of the stream, the loop of `SeparateKeyAndData` goes on with the
next call of `Next`; if the stream holds a key packet and its data packets can
be read, the call returns an `EncryptedSplit` and a nil error, and the failure
of the reader is not returned. -/
theorem SeparateKeyAndData_ignores_read_failure (L : Lib) (encrypted : String)
    (encryptedRaw : Bytes) (pre post : List NextResult) (msg : String) (k : EncryptedKey)
    (harmor : L.UnArmor encrypted = (encryptedRaw, none))
    (hstream : L.NewReader encryptedRaw = pre ++ .failure msg :: post)
    (hread : ∀ q, NextResult.packet (.SymmetricallyEncrypted q) ∈ pre ++ post →
      q.readErr = none)
    (hkey : NextResult.packet (.EncryptedKey k) ∈ pre ++ post) :
    (∀ rest ek outSplit,
      walkPackets (.failure msg :: rest) ek outSplit = walkPackets rest ek outSplit) ∧
    ∃ split, SeparateKeyAndData L encrypted = .returns (some split) none := by
  refine ⟨fun rest ek outSplit => by rw [walkPackets], ?_⟩
  have hread' : ∀ q, NextResult.packet (.SymmetricallyEncrypted q) ∈
      L.NewReader encryptedRaw → q.readErr = none := by
    intro q hq
    rw [hstream] at hq
    rcases List.mem_append.mp hq with h | h
    · exact hread q (List.mem_append_left _ h)
    · rcases List.mem_cons.mp h with h | h
      · cases h
      · exact hread q (List.mem_append_right _ h)
  have hkey' : NextResult.packet (.EncryptedKey k) ∈ L.NewReader encryptedRaw := by
    rw [hstream]
    rcases List.mem_append.mp hkey with h | h
    · exact List.mem_append_left _ h
    · exact List.mem_append_right _ (List.mem_cons_of_mem _ h)
  obtain ⟨ek1, out1, h1, _, h3, _, _⟩ :=
    walkPackets_append (L.NewReader encryptedRaw) [] hread' none
      { DataPacket := [], KeyPacket := [] }
  rw [List.append_nil, walkPackets_nil] at h1
  obtain ⟨key, hk⟩ := Option.ne_none_iff_exists'.mp (h3 (Or.inr ⟨k, hkey'⟩))
  refine ⟨{ out1 with KeyPacket := L.EncryptedKeySerialize key }, ?_⟩
  simp only [SeparateKeyAndData, harmor, h1, hk]

/-- C20 at the toy message "14": a key packet, then a failure of the reader
(a truncated packet); the call returns an `EncryptedSplit` and a nil error. -/
theorem SeparateKeyAndData_ignores_read_failure_witness :
    demoLib.NewReader [1, 4] =
      [.packet (.EncryptedKey demoKeyPacket)] ++ .failure "unexpected EOF" :: [] ∧
    ∃ split, SeparateKeyAndData demoLib "14" = .returns (some split) none :=
  ⟨rfl,
    (SeparateKeyAndData_ignores_read_failure demoLib "14" [1, 4]
      [.packet (.EncryptedKey demoKeyPacket)] [] "unexpected EOF" demoKeyPacket
      rfl rfl (by intro q hq; simp at hq) (by simp)).2⟩

end Session
